import Mathlib

/-!
Verification of the XMLTV-EPG-Tools merge pipeline (`xmlmerge.py`).

This file is a shallow embedding, in Lean 4, of the merge-and-normalize
pipeline of `xmlmerge.py` from the mikhoul/XMLTV-EPG-Tools repository,
together with proofs settling the specification claims about it.

Modelling conventions:
* Python `str` is modelled as Lean `String` / `List Char`; the regex
  character class `\d` is modelled as the ASCII digits `0`-`9` (XMLTV
  timestamp and id attribute values are ASCII; Python's `\d` would in
  addition accept non-ASCII Unicode decimal digits).
* Python regular-expression substitutions (`tz_pattern`, `sci_full`,
  `amp_pattern`) are implemented as recursive functions whose behaviour
  (leftmost match, ordered alternation, greedy quantifiers with
  backtracking) mirrors the CPython `re` engine on the concrete patterns
  of the source.
* `lxml` element trees are modelled by the inductive type `Elem`
  (tag, attribute list, optional text with a CDATA marker, children);
  `elem.get`/`elem.set` are first-match assoc-list operations, matching
  lxml's unique-key attribute dictionaries.
* machine integers do not occur: every Python integer in the modelled
  code is unbounded (`int`), modelled by `Nat`/`Int`.
-/

namespace XmlMerge

/-! Section: Python string primitives -/

/-- The characters Python's `str.strip()` (and the regex class `\s`)
treat as whitespace, restricted to ASCII. -/
def isPySpace (c : Char) : Bool :=
  c = ' ' || c = '\t' || c = '\n' || c = '\x0d' || c = '\x0b' || c = '\x0c'

/-- Python `str.strip()` on char lists: drop leading and trailing whitespace. -/
def stripChars (l : List Char) : List Char :=
  ((l.dropWhile isPySpace).reverse.dropWhile isPySpace).reverse

/-- Python `str.strip()`. -/
def pyStrip (s : String) : String := ⟨stripChars s.data⟩

/-- Python `str.replace(pat, repl)`: replace every non-overlapping
occurrence of `pat`, scanning left to right; the replacement text is not
rescanned.  (All patterns used in the source are non-empty.) -/
def replaceChars (pat repl : List Char) : List Char → List Char
  | [] => []
  | c :: rest =>
    if h : pat.isPrefixOf (c :: rest) ∧ pat ≠ [] then
      repl ++ replaceChars pat repl ((c :: rest).drop pat.length)
    else
      c :: replaceChars pat repl rest
termination_by l => l.length
decreasing_by
  · simp only [List.length_drop, List.length_cons]
    have hp : pat.length ≠ 0 := fun hz => h.2 (List.eq_nil_of_length_eq_zero hz)
    omega
  · simp only [List.length_cons]
    omega

/-- Model of `xml.sax.saxutils.unescape` with default entities: sequentially
`str.replace` of `&lt;`, `&gt;`, and (last) `&amp;`. -/
def saxUnescape (s : String) : String :=
  ⟨replaceChars "&amp;".data "&".data
    (replaceChars "&gt;".data ">".data
      (replaceChars "&lt;".data "<".data s.data))⟩

/-- Function `normalize_id` from the source: unescape XML entities, then strip
surrounding whitespace. -/
def normalize_id (raw_id : String) : String :=
  pyStrip (saxUnescape raw_id)

/-! Section: the `tz_pattern` substitution

`tz_pattern = re.compile(r'([+-])(\d{1,2}):(\d{2})$')`, used as
`tz_pattern.sub(lambda m: f"{m.group(1)}{int(m.group(2)):02d}{m.group(3)}", ts)`.

Because of the `$` anchor the pattern can match only as a suffix, so the
substitution rewrites at most one occurrence.  The regex engine prefers
the leftmost match, i.e. the two-digit-hour form when both fit; for a
two-digit hour `f"{int(hh):02d}"` re-renders the same two digits, so the
rewrite just deletes the colon; a one-digit hour is zero-padded. -/

def isSign (c : Char) : Bool := c = '+' || c = '-'

def tzSub (s : String) : String :=
  match s.data.reverse with
  | m2 :: m1 :: colon :: h2 :: h1 :: sg :: pre =>
    if colon = ':' ∧ m2.isDigit ∧ m1.isDigit ∧ h2.isDigit ∧ h1.isDigit ∧ isSign sg then
      ⟨pre.reverse ++ sg :: h1 :: h2 :: m1 :: [m2]⟩
    else if colon = ':' ∧ m2.isDigit ∧ m1.isDigit ∧ h2.isDigit ∧ isSign h1 then
      ⟨(sg :: pre).reverse ++ h1 :: '0' :: h2 :: m1 :: [m2]⟩
    else s
  | m2 :: m1 :: colon :: h2 :: [h1] =>
    if colon = ':' ∧ m2.isDigit ∧ m1.isDigit ∧ h2.isDigit ∧ isSign h1 then
      ⟨h1 :: '0' :: h2 :: m1 :: [m2]⟩
    else s
  | _ => s

/-! Section: the `sci_full` substitution

`sci_full = re.compile(r'(\d+\.\d+e[+-]\d+)(?:\s*([+-]\d{4}))?$', re.IGNORECASE)`,
used with `.match` (anchored at the start) as
`prog.set(attr, f"{int(float(m.group(1))):014d}" + (m.group(2) or ''))`.

Each `\d+` is followed by a non-digit token and `\s*` by a sign, so
greedy maximal munch is the unique viable parse and no backtracking
arises.  Note that the whitespace between the scientific value and the
offset is consumed by `\s*` but not captured: the rewritten value is the
digit string immediately followed by the offset.

`int(float(...))` is modelled as exact truncation of the decimal value
`intpart.fracpart × 10^±exp`; CPython first rounds the decimal literal
to the nearest IEEE double, so the two agree exactly whenever the value
is exactly representable (in particular on every concrete input used in
the theorems below). -/

def digitVal (c : Char) : Nat := c.toNat - 48

def natOfDigits (l : List Char) : Nat :=
  l.foldl (fun a c => a * 10 + digitVal c) 0

/-- Decimal digits of `n`, most significant first (`Nat.repr` re-proved
locally so that everything about its characters is elementary). -/
def natToDigits (n : Nat) : List Char :=
  if h : n < 10 then [Char.ofNat (48 + n)]
  else natToDigits (n / 10) ++ [Char.ofNat (48 + n % 10)]
termination_by n
decreasing_by
  exact Nat.div_lt_self (by omega) (by omega)

/-- Rendering `f"{v:014d}"` for `v ≥ 0`: decimal digits, left-padded with `'0'` to
a minimum width of 14 (wider values are rendered in full). -/
def pad14 (v : Nat) : List Char :=
  List.replicate (14 - (natToDigits v).length) '0' ++ natToDigits v

/-- One successful `sci_full` match: integer-part digits, fraction
digits, exponent sign (`true` = `+`), exponent digits, and the captured
offset suffix (`[sign,d,d,d,d]` or `[]`). -/
structure SciMatch where
  intPart : List Char
  fracPart : List Char
  expPos : Bool
  expDigits : List Char
  suffix : List Char
deriving Repr, DecidableEq

def sciParse (l : List Char) : Option SciMatch :=
  let d1 := l.takeWhile Char.isDigit
  if d1 = [] then none else
  match l.drop d1.length with
  | dot :: r1 =>
    if dot ≠ '.' then none else
    let d2 := r1.takeWhile Char.isDigit
    if d2 = [] then none else
    (match r1.drop d2.length with
     | e :: sg :: r2 =>
       if (e = 'e' ∨ e = 'E') ∧ isSign sg then
         let d3 := r2.takeWhile Char.isDigit
         if d3 = [] then none else
         (match r2.drop d3.length with
          | [] => some ⟨d1, d2, sg = '+', d3, []⟩
          | rest =>
            let ws := rest.takeWhile isPySpace
            (match rest.drop ws.length with
             | [s, a, b, c, d] =>
               if isSign s ∧ a.isDigit ∧ b.isDigit ∧ c.isDigit ∧ d.isDigit then
                 some ⟨d1, d2, sg = '+', d3, [s, a, b, c, d]⟩
               else none
             | _ => none))
       else none
     | _ => none)
  | [] => none

/-- The truncated integer value of a `SciMatch`
(`int(float("ipart.fpart e±exp"))`, modelled exactly). -/
def sciVal (m : SciMatch) : Nat :=
  let n := natOfDigits (m.intPart ++ m.fracPart)
  let f := m.fracPart.length
  let e := natOfDigits m.expDigits
  if m.expPos then
    if f ≤ e then n * 10 ^ (e - f) else n / 10 ^ (f - e)
  else n / 10 ^ (f + e)

def sciSub (s : String) : String :=
  match sciParse s.data with
  | none => s
  | some m => ⟨pad14 (sciVal m) ++ m.suffix⟩

/-! Section: the `amp_pattern` substitution

`amp_pattern = re.compile(r'&(?![a-zA-Z]+;|#\d+;|#x[0-9A-Fa-f]+;)')`,
used as `amp_pattern.sub('&amp;', text)`: every `&` not followed by a
recognized character/entity-reference shape is replaced by `&amp;`.
Each quantified class in the lookahead is followed by `;`, which is
outside the class, so greedy maximal munch is again exact. -/

def isHexDigit (c : Char) : Bool :=
  c.isDigit || ('a' ≤ c && c ≤ 'f') || ('A' ≤ c && c ≤ 'F')

/-- Does `[a-zA-Z]+;|#\d+;|#x[0-9A-Fa-f]+;` match a prefix of `l`? -/
def entityAhead (l : List Char) : Bool :=
  if l.head? = some '#' then
    if (l.drop 1).head? = some 'x' then
      ((l.drop 2).takeWhile isHexDigit) ≠ [] &&
        ((l.drop 2).dropWhile isHexDigit).head? = some ';'
    else
      ((l.drop 1).takeWhile Char.isDigit) ≠ [] &&
        ((l.drop 1).dropWhile Char.isDigit).head? = some ';'
  else
    (l.takeWhile Char.isAlpha) ≠ [] && (l.dropWhile Char.isAlpha).head? = some ';'

def ampSubChars : List Char → List Char
  | [] => []
  | c :: rest =>
    if c = '&' then
      if entityAhead rest then '&' :: ampSubChars rest
      else '&' :: 'a' :: 'm' :: 'p' :: ';' :: ampSubChars rest
    else c :: ampSubChars rest

def ampSub (s : String) : String := ⟨ampSubChars s.data⟩

/-- Every `&` in the list is followed by a recognized entity shape
(i.e. `amp_pattern` has no match). -/
def ampStable : List Char → Bool
  | [] => true
  | c :: rest => (if c = '&' then entityAhead rest else true) && ampStable rest

/-! Section: `datetime.strptime(_, '%Y%m%d%H%M%S %z')`

Used by `fix_chronology` (and, under the disabled `trim` option, by the
ingest loop).  CPython compiles the format to the regex

  `(?P<Y>\d\d\d\d)(?P<m>1[0-2]|0[1-9]|[1-9])(?P<d>3[0-1]|[1-2]\d|0[1-9]|[1-9]| [1-9])`
  `(?P<H>2[0-3]|[0-1]\d|\d)(?P<M>[0-5]\d|\d)(?P<S>6[0-1]|[0-5]\d|\d)\s+`
  `(?P<z>[+-]\d\d:?[0-5]\d(:?[0-5]\d(\.\d{1,6})?)?|(?-i:Z))`

matched with `.match` (prefix match), then rejects the input when
unconverted data remains, converts the `z` group (with the colon
surgery of `_strptime`), and finally validates the fields through the
`datetime`/`timezone` constructors.  Each component below returns its
possible parses in the engine's backtracking order, and the overall
match is resolved by depth-first search, exactly as the `re` engine
does. -/

def pY : List Char → List (Nat × List Char)
  | a :: b :: c :: d :: r =>
    if a.isDigit ∧ b.isDigit ∧ c.isDigit ∧ d.isDigit then
      [(natOfDigits [a, b, c, d], r)] else []
  | _ => []

def pMon (l : List Char) : List (Nat × List Char) :=
  (match l with
   | a :: b :: r => if a = '1' ∧ '0' ≤ b ∧ b ≤ '2' then [(10 + digitVal b, r)] else []
   | _ => []) ++
  (match l with
   | a :: b :: r => if a = '0' ∧ '1' ≤ b ∧ b ≤ '9' then [(digitVal b, r)] else []
   | _ => []) ++
  (match l with
   | a :: r => if '1' ≤ a ∧ a ≤ '9' then [(digitVal a, r)] else []
   | _ => [])

def pDay (l : List Char) : List (Nat × List Char) :=
  (match l with
   | a :: b :: r => if a = '3' ∧ '0' ≤ b ∧ b ≤ '1' then [(30 + digitVal b, r)] else []
   | _ => []) ++
  (match l with
   | a :: b :: r => if '1' ≤ a ∧ a ≤ '2' ∧ b.isDigit then [(10 * digitVal a + digitVal b, r)] else []
   | _ => []) ++
  (match l with
   | a :: b :: r => if a = '0' ∧ '1' ≤ b ∧ b ≤ '9' then [(digitVal b, r)] else []
   | _ => []) ++
  (match l with
   | a :: r => if '1' ≤ a ∧ a ≤ '9' then [(digitVal a, r)] else []
   | _ => []) ++
  (match l with
   | a :: b :: r => if a = ' ' ∧ '1' ≤ b ∧ b ≤ '9' then [(digitVal b, r)] else []
   | _ => [])

def pHour (l : List Char) : List (Nat × List Char) :=
  (match l with
   | a :: b :: r => if a = '2' ∧ '0' ≤ b ∧ b ≤ '3' then [(20 + digitVal b, r)] else []
   | _ => []) ++
  (match l with
   | a :: b :: r => if '0' ≤ a ∧ a ≤ '1' ∧ b.isDigit then [(10 * digitVal a + digitVal b, r)] else []
   | _ => []) ++
  (match l with
   | a :: r => if a.isDigit then [(digitVal a, r)] else []
   | _ => [])

def pMin (l : List Char) : List (Nat × List Char) :=
  (match l with
   | a :: b :: r => if '0' ≤ a ∧ a ≤ '5' ∧ b.isDigit then [(10 * digitVal a + digitVal b, r)] else []
   | _ => []) ++
  (match l with
   | a :: r => if a.isDigit then [(digitVal a, r)] else []
   | _ => [])

def pSec (l : List Char) : List (Nat × List Char) :=
  (match l with
   | a :: b :: r => if a = '6' ∧ '0' ≤ b ∧ b ≤ '1' then [(60 + digitVal b, r)] else []
   | _ => []) ++
  (match l with
   | a :: b :: r => if '0' ≤ a ∧ a ≤ '5' ∧ b.isDigit then [(10 * digitVal a + digitVal b, r)] else []
   | _ => []) ++
  (match l with
   | a :: r => if a.isDigit then [(digitVal a, r)] else []
   | _ => [])

/-- Whitespace `\s+`: greedy, so the candidates drop the maximal whitespace run
first, backtracking down to a single whitespace character. -/
def pWS (l : List Char) : List (List Char) :=
  let n := (l.takeWhile isPySpace).length
  (List.range n).map (fun i => l.drop (n - i))

/-- Optional fraction `(\.\d{1,6})?` of the `%z` pattern (greedy:
longest fraction first, then absent).  Returns (matched z chars, rest). -/
def zFrac (pre : List Char) (l : List Char) : List (List Char × List Char) :=
  (match l with
   | '.' :: r =>
     let ds := (r.takeWhile Char.isDigit).take 6
     (List.range ds.length).map (fun i =>
       let k := ds.length - i
       (pre ++ '.' :: ds.take k, r.drop k))
   | _ => []) ++ [(pre, l)]

/-- Optional seconds `(:?[0-5]\d(\.\d{1,6})?)?` of the `%z` pattern. -/
def zSec (pre : List Char) (l : List Char) : List (List Char × List Char) :=
  (match l with
   | ':' :: c :: d :: r =>
     if '0' ≤ c ∧ c ≤ '5' ∧ d.isDigit then zFrac (pre ++ [':', c, d]) r else []
   | _ => []) ++
  (match l with
   | c :: d :: r =>
     if '0' ≤ c ∧ c ≤ '5' ∧ d.isDigit then zFrac (pre ++ [c, d]) r else []
   | _ => []) ++
  [(pre, l)]

/-- Required minutes `[0-5]\d` of the `%z` pattern, then the optional
seconds group. -/
def zMin (pre : List Char) (l : List Char) : List (List Char × List Char) :=
  match l with
  | c :: d :: r =>
    if '0' ≤ c ∧ c ≤ '5' ∧ d.isDigit then zSec (pre ++ [c, d]) r else []
  | _ => []

/-- The full `%z` component
`[+-]\d\d:?[0-5]\d(:?[0-5]\d(\.\d{1,6})?)?|(?-i:Z)`. -/
def pZ (l : List Char) : List (List Char × List Char) :=
  (match l with
   | sg :: a :: b :: r =>
     if isSign sg ∧ a.isDigit ∧ b.isDigit then
       (match r with
        | ':' :: r2 => zMin [sg, a, b, ':'] r2
        | _ => []) ++ zMin [sg, a, b] r
     else []
   | _ => []) ++
  (match l with
   | 'Z' :: r => [(['Z'], r)]
   | _ => [])

/-- A successful prefix match of the whole format regex. -/
structure RawTS where
  y : Nat
  mo : Nat
  d : Nat
  h : Nat
  mi : Nat
  s : Nat
  z : List Char
  rest : List Char
deriving Repr, DecidableEq

/-- Depth-first search over the component alternatives in engine order:
the first successful parse of the whole format is the regex match
(matching a prefix; the length check comes afterwards). -/
def strpMatch (l : List Char) : Option RawTS :=
  (pY l).findSome? fun py =>
  (pMon py.2).findSome? fun pm =>
  (pDay pm.2).findSome? fun pd =>
  (pHour pd.2).findSome? fun ph =>
  (pMin ph.2).findSome? fun pmi =>
  (pSec pmi.2).findSome? fun ps =>
  (pWS ps.2).findSome? fun r7 =>
  (pZ r7).findSome? fun pz =>
  some ⟨py.1, pm.1, pd.1, ph.1, pmi.1, ps.1, pz.1, pz.2⟩

/-- Python `int()` of a string of decimal digits; `none` models
`ValueError` on anything else (the only shapes that can arise here). -/
def pyIntDigits (l : List Char) : Option Nat :=
  if l ≠ [] ∧ l.all Char.isDigit then some (natOfDigits l) else none

/-- The colon surgery of `_strptime` on the matched `z` text:
`if z[3] == ':': z = z[:3] + z[4:]; if len(z) > 5: (z[5] must be ':') z = z[:5] + z[6:]`. -/
def zSurgery (z : List Char) : Option (List Char) :=
  if z.get? 3 = some ':' then
    let z' := z.take 3 ++ z.drop 4
    if z'.length > 5 then
      if z'.get? 5 = some ':' then some (z'.take 5 ++ z'.drop 6) else none
    else some z'
  else some z

/-- UTC-offset of the matched `z` text in microseconds
(`gmtoff * 10^6 + gmtoff_fraction`, negated for a `-` sign);
`none` models a `ValueError` during the conversion. -/
def zOffset (z0 : List Char) : Option Int :=
  if z0 = ['Z'] then some 0 else
  match zSurgery z0 with
  | none => none
  | some z =>
    let hs := (z.drop 1).take 2
    let ms := (z.drop 3).take 2
    let ss := (z.drop 5).take 2
    match pyIntDigits hs, pyIntDigits ms,
          (if ss = [] then some 0 else pyIntDigits ss) with
    | some h, some m, some s =>
      let rem := z.drop 8
      match pyIntDigits (rem ++ List.replicate (6 - rem.length) '0') with
      | some frac =>
        let off : Int := ((h * 3600 + m * 60 + s : Nat) : Int) * 1000000 + frac
        some (if z.head? = some '-' then -off else off)
      | none => none
    | _, _, _ => none

def isLeapYear (y : Nat) : Bool :=
  (y % 4 = 0 && y % 100 ≠ 0) || y % 400 = 0

def daysInMonth (y mo : Nat) : Nat :=
  match mo with
  | 1 => 31 | 2 => if isLeapYear y then 29 else 28 | 3 => 31
  | 4 => 30 | 5 => 31 | 6 => 30 | 7 => 31 | 8 => 31
  | 9 => 30 | 10 => 31 | 11 => 30 | 12 => 31
  | _ => 0

def daysBeforeMonth (y mo : Nat) : Nat :=
  ((List.range mo).filter (fun m => 1 ≤ m)).foldl (fun a m => a + daysInMonth y m) 0

/-- Proleptic-Gregorian ordinal (days, `date(1,1,1).toordinal() = 1`). -/
def toOrdinal (y mo d : Nat) : Nat :=
  365 * (y - 1) + (y - 1) / 4 - (y - 1) / 100 + (y - 1) / 400 +
    daysBeforeMonth y mo + d

/-- Model of `datetime.strptime(s, '%Y%m%d%H%M%S %z')`, reduced to the instant it
denotes, in microseconds UTC (aware datetimes compare by instant).
`none` models any raised `ValueError`/`IndexError`/`TypeError` —
no-match, unconverted trailing data, out-of-range field, or an
out-of-range UTC offset (`timezone` requires `|offset| < 24h`). -/
def parseTS (s : String) : Option Int :=
  match strpMatch s.data with
  | none => none
  | some r =>
    if r.rest ≠ [] then none
    else if r.y = 0 then none
    else if r.d = 0 ∨ daysInMonth r.y r.mo < r.d then none
    else if 59 < r.s then none
    else
      match zOffset r.z with
      | none => none
      | some off =>
        if off ≤ -86400000000 ∨ 86400000000 ≤ off then none
        else
          some (((toOrdinal r.y r.mo r.d * 86400 +
                  r.h * 3600 + r.mi * 60 + r.s : Nat) : Int) * 1000000 - off)

/-- When `prog.get(attr)` is `None`: `datetime.strptime(None, ...)` raises
`TypeError`, swallowed by the same bare `except`. -/
def parseAttrTS : Option String → Option Int
  | none => none
  | some s => parseTS s

/-! Section: lxml element trees

An element carries a tag, its attribute dictionary (unique keys,
insertion-ordered — modelled as an assoc list), optional text (with a
flag recording whether the text was installed as a CDATA section), and
its children.  `el.get`/`el.set` read and write single attributes. -/

inductive Elem where
  | mk : String → List (String × String) → Option String → Bool → List Elem → Elem

def Elem.tag : Elem → String
  | .mk t _ _ _ _ => t

def Elem.attrs : Elem → List (String × String)
  | .mk _ a _ _ _ => a

def Elem.text : Elem → Option String
  | .mk _ _ tx _ _ => tx

def Elem.isCData : Elem → Bool
  | .mk _ _ _ cd _ => cd

def Elem.children : Elem → List Elem
  | .mk _ _ _ _ ch => ch

/-- Attribute read, `el.get(k)`. -/
def attrGet (attrs : List (String × String)) (k : String) : Option String :=
  (attrs.find? (fun p => p.1 = k)).map (·.2)

/-- Attribute write, `el.set(k, v)`: overwrite the existing key, else
append.  (lxml attribute dictionaries have unique keys, so rewriting
every matching entry coincides with rewriting the single one.) -/
def attrSet (attrs : List (String × String)) (k v : String) : List (String × String) :=
  if attrs.any (fun p => p.1 = k) then
    attrs.map (fun p => if p.1 = k then (k, v) else p)
  else attrs ++ [(k, v)]

def Elem.get (e : Elem) (k : String) : Option String := attrGet e.attrs k

def Elem.set : Elem → String → String → Elem
  | .mk t a tx cd ch, k, v => .mk t (attrSet a k v) tx cd ch

def Elem.withChildren : Elem → List Elem → Elem
  | .mk t a tx cd _, ch => .mk t a tx cd ch

/-- Python truthiness of an optional string (`None` and `''` are falsy). -/
def truthy : Option String → Bool
  | none => false
  | some s => s ≠ ""

/-! Section: the normalization passes -/

/-- Shared shape of `normalize_timezones`: read one attribute, apply the
substitution, write back only when it changed. -/
def fixAttrWith (f : String → String) (a : String) (e : Elem) : Elem :=
  match e.get a with
  | some ts => if ts ≠ "" ∧ f ts ≠ ts then e.set a (f ts) else e
  | none => e

/-- Pass 1, `normalize_timezones`: apply the `tz_pattern` substitution
to the `start` and `stop` attributes of every top-level `programme`. -/
def normalize_timezones (root : Elem) : Elem :=
  root.withChildren (root.children.map (fun c =>
    if c.tag = "programme" then
      fixAttrWith tzSub "stop" (fixAttrWith tzSub "start" c)
    else c))

/-- One attribute step of `normalize_exponents`: `val = prog.get(attr, '')`;
on a `sci_full` match the attribute is set unconditionally. -/
def expFixAttr (a : String) (e : Elem) : Elem :=
  match sciParse ((e.get a).getD "").data with
  | some m => e.set a ⟨pad14 (sciVal m) ++ m.suffix⟩
  | none => e

/-- Pass 2, `normalize_exponents`. -/
def normalize_exponents (root : Elem) : Elem :=
  root.withChildren (root.children.map (fun c =>
    if c.tag = "programme" then expFixAttr "stop" (expFixAttr "start" c) else c))

/-- Pass 3, `escape_specials`, over `root.iter()` (the whole subtree,
root included): a text installed as a CDATA section is unwrapped to the
plain text; nothing else — in particular no attribute value — is
touched. -/
def escape_specials : Elem → Elem
  | .mk t a tx cd ch =>
    .mk t a tx (if cd ∧ tx.isSome then false else cd)
      (ch.attach.map (fun c => escape_specials c.1))
termination_by e => sizeOf e
decreasing_by
  have := List.sizeOf_lt_of_mem c.2
  simp only [Elem.mk.sizeOf_spec]
  omega

/-- Removal predicate of `fix_chronology`: both timestamps parse and
`stop <= start`; any exception (unparsable or missing attribute) is
swallowed by the bare `except`, keeping the programme. -/
def progBadChronology (c : Elem) : Bool :=
  match parseAttrTS (c.get "start"), parseAttrTS (c.get "stop") with
  | some s, some e => e ≤ s
  | _, _ => false

/-- Pass 4, `fix_chronology`: iterate over a snapshot of the top-level
`programme` children and remove the flagged ones (each removal takes out
exactly that child, so the loop is a filter of the children). -/
def fix_chronology (root : Elem) : Elem :=
  root.withChildren (root.children.filter
    (fun c => ¬(c.tag = "programme" ∧ progBadChronology c)))

/-- Pass 6, `escape_ampersands`, over `root.iter()`: apply the
`amp_pattern` substitution to every truthy text node.  (`ampSub` is the
identity on `""`, and writing back an unchanged value is the identity,
so the truthiness/changed guards of the source do not alter the
result.) -/
def escape_ampersands : Elem → Elem
  | .mk t a tx cd ch =>
    .mk t a (tx.map ampSub) cd (ch.attach.map (fun c => escape_ampersands c.1))
termination_by e => sizeOf e
decreasing_by
  have := List.sizeOf_lt_of_mem c.2
  simp only [Elem.mk.sizeOf_spec]
  omega

/-- The dict comprehension `{normalize_id(cid): cid for cid in seen_channel_ids}`:
on colliding keys the last entry wins.  (`seen_channel_ids` is a Python
set; its iteration order is arbitrary — it is modelled here by the
insertion order, which the merge invariant below proves collision-free
anyway.) -/
def norm_map (seen : List String) : List (String × String) :=
  seen.map (fun cid => (normalize_id cid, cid))

/-- Dict lookup with last-entry-wins semantics. -/
def dictLookup (m : List (String × String)) (k : String) : Option String :=
  (m.reverse.find? (fun p => p.1 = k)).map (·.2)

/-- Per-programme step of `prune_invalid_programmes`: `none` = pruned. -/
def pruneChild (seen : List String) (c : Elem) : Option Elem :=
  if c.tag = "programme" then
    match dictLookup (norm_map seen) (normalize_id ((c.get "channel").getD "")) with
    | some canonical =>
      some (if c.get "channel" = some canonical then c else c.set "channel" canonical)
    | none => none
  else some c

/-- Pass 5, `prune_invalid_programmes`: drop the top-level `programme`
children whose normalized channel reference is not a key of `norm_map`;
rewrite the reference of the kept ones to the canonical literal id. -/
def prune_invalid_programmes (seen : List String) (root : Elem) : Elem :=
  root.withChildren (root.children.filterMap (pruneChild seen))

/-! Section: serialization and the `final_escape` round-trip

`final_escape` re-serializes the tree through lxml and parses the bytes
back.  Per node this amounts to: every text and attribute value goes
through XML-escaping followed by parser unescaping, and a CDATA-marked
text is emitted verbatim inside `<![CDATA[..]]>` and comes back as plain
text (the parser strips CDATA).  lxml's `pretty_print` additionally
inserts inter-element indentation whitespace, which contains no
ampersands, no timestamps and no channel references and is therefore
inert for every pass; it is omitted from the model. -/

/-- libxml2 text-node escaping (`&`, `<`, `>`, and CR as a char ref). -/
def escTextChar (c : Char) : List Char :=
  if c = '&' then "&amp;".data
  else if c = '<' then "&lt;".data
  else if c = '>' then "&gt;".data
  else if c = '\x0d' then "&#13;".data
  else [c]

def xmlEscapeText (l : List Char) : List Char := (l.map escTextChar).flatten

/-- libxml2 attribute-value escaping (adds `"` and whitespace refs). -/
def escAttrChar (c : Char) : List Char :=
  if c = '&' then "&amp;".data
  else if c = '<' then "&lt;".data
  else if c = '>' then "&gt;".data
  else if c = '"' then "&quot;".data
  else if c = '\n' then "&#10;".data
  else if c = '\t' then "&#9;".data
  else if c = '\x0d' then "&#13;".data
  else [c]

def xmlEscapeAttr (l : List Char) : List Char := (l.map escAttrChar).flatten

def hexVal (c : Char) : Nat :=
  if c.isDigit then digitVal c
  else if 'a' ≤ c ∧ c ≤ 'f' then c.toNat - 87
  else c.toNat - 55

def hexOfDigits (l : List Char) : Nat :=
  l.foldl (fun a c => a * 16 + hexVal c) 0

/-- Numeric character reference at the head of the text following `&`:
returns the decoded character and how many characters it spans. -/
def numericRef (rest : List Char) : Option (Char × Nat) :=
  if rest.head? = some '#' then
    if (rest.drop 1).head? = some 'x' then
      let r2 := rest.drop 2
      let ds := r2.takeWhile isHexDigit
      if ds ≠ [] ∧ (r2.drop ds.length).head? = some ';' then
        some (Char.ofNat (hexOfDigits ds), ds.length + 3)
      else none
    else
      let r2 := rest.drop 1
      let ds := r2.takeWhile Char.isDigit
      if ds ≠ [] ∧ (r2.drop ds.length).head? = some ';' then
        some (Char.ofNat (natOfDigits ds), ds.length + 2)
      else none
  else none

/-- XML parser unescaping: resolve the predefined entities and numeric
character references; an `&` that heads no recognized reference is kept
as-is (escaper output never produces that case). -/
def xmlUnescapeChars : List Char → List Char
  | [] => []
  | c :: rest =>
    if c = '&' then
      if "amp;".data.isPrefixOf rest then '&' :: xmlUnescapeChars (rest.drop 4)
      else if "lt;".data.isPrefixOf rest then '<' :: xmlUnescapeChars (rest.drop 3)
      else if "gt;".data.isPrefixOf rest then '>' :: xmlUnescapeChars (rest.drop 3)
      else if "quot;".data.isPrefixOf rest then '"' :: xmlUnescapeChars (rest.drop 5)
      else if "apos;".data.isPrefixOf rest then Char.ofNat 39 :: xmlUnescapeChars (rest.drop 5)
      else
        match numericRef rest with
        | some cn => cn.1 :: xmlUnescapeChars (rest.drop cn.2)
        | none => '&' :: xmlUnescapeChars rest
    else c :: xmlUnescapeChars rest
termination_by l => l.length
decreasing_by all_goals (simp only [List.length_drop, List.length_cons]; omega)

def roundtripText (s : String) : String := ⟨xmlUnescapeChars (xmlEscapeText s.data)⟩

def roundtripAttr (s : String) : String := ⟨xmlUnescapeChars (xmlEscapeAttr s.data)⟩

/-- Node-level effect of `final_escape` (`fromstring(tostring(root))`). -/
def final_escape : Elem → Elem
  | .mk t a tx cd ch =>
    .mk t (a.map (fun p => (p.1, roundtripAttr p.2)))
      (tx.map (fun s => if cd then s else roundtripText s)) false
      (ch.attach.map (fun c => final_escape c.1))
termination_by e => sizeOf e
decreasing_by
  have := List.sizeOf_lt_of_mem c.2
  simp only [Elem.mk.sizeOf_spec]
  omega

/-- Serialization to text (the byte content of the output file, modulo
the pretty-print indentation noted above). -/
def serializeElem : Elem → String
  | .mk t a tx cd ch =>
    "<" ++ t ++
      String.join (a.map (fun p => " " ++ p.1 ++ "=\"" ++ ⟨xmlEscapeAttr p.2.data⟩ ++ "\"")) ++
      ">" ++
      (match tx with
       | some s => if cd then "<![CDATA[" ++ s ++ "]]>" else ⟨xmlEscapeText s.data⟩
       | none => "") ++
      String.join (ch.attach.map (fun c => serializeElem c.1)) ++ "</" ++ t ++ ">"
termination_by e => sizeOf e
decreasing_by
  have := List.sizeOf_lt_of_mem c.2
  simp only [Elem.mk.sizeOf_spec]
  omega

/-- The full normalization pipeline of `xmlmerge()`, in source order,
ending with the `final_escape` round-trip. -/
def normalizePipeline (seen : List String) (t : Elem) : Elem :=
  final_escape (escape_ampersands (prune_invalid_programmes seen
    (fix_chronology (escape_specials (normalize_exponents (normalize_timezones t))))))

/-! Section: the merge state and ingestion

`trim` is the compile-time constant `False` in the source, so the trim
branch of the programme loop is dead code and omitted.  Logging is pure
observation and not modelled. -/

structure MergeState where
  output_channels : List (String × Elem)
  seen_channel_ids : List String
  output_programs : List (String × List Elem)

def emptyState : MergeState := ⟨[], [], []⟩

/-- Dict update `output_programs.setdefault(ch, []).append(elem)`. -/
def progAppend (m : List (String × List Elem)) (k : String) (e : Elem) :
    List (String × List Elem) :=
  if m.any (fun p => p.1 = k) then
    m.map (fun p => if p.1 = k then (p.1, p.2 ++ [e]) else p)
  else m ++ [(k, [e])]

/-- The programme list recorded for channel key `k`
(`output_programs.get(k, [])`). -/
def progsFor (m : List (String × List Elem)) (k : String) : List Elem :=
  ((m.find? (fun p => p.1 = k)).map (fun p => p.2)).getD []

/-- One iteration of the element loop of `get_channels_programs`. -/
def ingestElem (st : MergeState) (e : Elem) : MergeState :=
  if e.tag = "channel" then
    match e.get "id" with
    | some cid =>
      if cid ≠ "" then
        if st.output_channels.any (fun p => p.1 = normalize_id cid) then st
        else ⟨st.output_channels ++ [(normalize_id cid, e)],
              st.seen_channel_ids ++ [cid], st.output_programs⟩
      else st
    | none => st
  else if e.tag = "programme" then
    match e.get "channel" with
    | some ch =>
      if ch ≠ "" then
        { st with output_programs := progAppend st.output_programs ch e }
      else st
    | none => st
  else st

/-- The pure ingest part of `get_channels_programs`: fold the element
loop over the root's children. -/
def ingestRoot (st : MergeState) (root : Elem) : MergeState :=
  root.children.foldl ingestElem st

/-- Ingesting a list of already-parsed sources. -/
def ingestAll (roots : List Elem) : MergeState :=
  roots.foldl ingestRoot emptyState

/-- Model of `build_merged_tree` (the generation timestamp is an input;
the source stamps the wall clock). -/
def build_merged_tree (st : MergeState) (ts : String) : Elem :=
  .mk "tv"
    [("generator-info-name", "mikhoul/XMLTV-EPG-Tools"),
     ("generator-info-url", "https://github.com/mikhoul/XMLTV-EPG-Tools"),
     ("generated-ts", ts)]
    none false
    ((st.output_channels.map (fun p => p.2)) ++
      (st.output_programs.map (fun p => p.2)).flatten)

/-! Section: source resolution (`open_xml`) and run-level control flow

The outside world is a record of oracles: cache freshness, cache/fetch
content, local-file readability, and the lenient lxml parser (which
either recovers a tree or fails; both `fetch_to_cache` and the
`etree.parse` call are wrapped in `try/except` returning `None`).  The
local-file branch of `open_xml` calls `open`/`gzip.open` with **no**
exception handler, modelled as the `Except.error` case. -/

structure Env where
  fresh : String → Bool
  cacheContent : String → String
  fetchOk : String → Bool
  fetchContent : String → String
  localFile : String → Option String
  parse : String → Option Elem

def isUrl (s : String) : Bool :=
  "http://".data.isPrefixOf s.data || "https://".data.isPrefixOf s.data

/-- Model of `open_xml`: `Except.error` is an uncaught Python exception,
`Except.ok none` a source that contributes nothing (logged failure). -/
def open_xml (env : Env) (source : String) : Except String (Option Elem) :=
  if isUrl source then
    match
      (if env.fresh source then some (env.cacheContent source)
       else if env.fetchOk source then some (env.fetchContent source)
       else none) with
    | none => Except.ok none
    | some content => Except.ok (env.parse content)
  else
    match env.localFile source with
    | none => Except.error source
    | some content => Except.ok (env.parse content)

/-- Model of `get_channels_programs(source)` including source
resolution: a failed resolution contributes nothing, an uncaught
exception propagates. -/
def get_channels_programs (env : Env) (st : MergeState) (source : String) :
    Except String MergeState :=
  match open_xml env source with
  | Except.error e => Except.error e
  | Except.ok none => Except.ok st
  | Except.ok (some root) => Except.ok (ingestRoot st root)

/-- The source loop of `xmlmerge()`. -/
def runMerge (env : Env) (sources : List String) : Except String MergeState :=
  sources.foldlM (get_channels_programs env) emptyState

/-- The whole run of `xmlmerge()` down to the serialized output text. -/
def xmlmerge (env : Env) (sources : List String) (ts : String) :
    Except String String :=
  match runMerge env sources with
  | Except.error e => Except.error e
  | Except.ok st =>
    Except.ok (serializeElem (normalizePipeline st.seen_channel_ids
      (build_merged_tree st ts)))

/-! Section: auxiliary predicates for the pipeline proofs -/

/-- Clearing every CDATA marker in the tree (the observable tree effect
of the serialize/re-parse round-trip, given that escaping followed by
parsing is the identity on every text and attribute value). -/
def clearCData : Elem → Elem
  | .mk t a tx _ ch => .mk t a tx false (ch.attach.map (fun c => clearCData c.1))
termination_by e => sizeOf e
decreasing_by
  have := List.sizeOf_lt_of_mem c.2
  simp only [Elem.mk.sizeOf_spec]
  omega

/-- Deeply: no CDATA markers remain and every text is a fixed point of
the ampersand substitution. -/
def textsClean : Elem → Bool
  | .mk _ _ tx cd ch =>
    !cd &&
      (match tx with
       | some s => ampSub s == s
       | none => true) &&
      ch.attach.all (fun c => textsClean c.1)
termination_by e => sizeOf e
decreasing_by
  have := List.sizeOf_lt_of_mem c.2
  simp only [Elem.mk.sizeOf_spec]
  omega

/-- A top-level programme element that every structural pass leaves
unchanged: its timestamps are fixed points of both substitutions, its
chronology is not flagged, and the orphan pruning keeps it as-is. -/
def ProgNormal (seen : List String) (c : Elem) : Prop :=
  (∀ ts, c.get "start" = some ts → tzSub ts = ts ∧ sciParse ts.data = none) ∧
  (∀ ts, c.get "stop" = some ts → tzSub ts = ts ∧ sciParse ts.data = none) ∧
  progBadChronology c = false ∧ pruneChild seen c = some c

/-- A tree on which the whole pipeline is the identity. -/
def GoodTree (seen : List String) (t : Elem) : Prop :=
  (∀ c ∈ t.children, c.tag = "programme" → ProgNormal seen c) ∧
  textsClean t = true

/-- Invariant of the channel dictionaries during ingestion: the stored
keys are exactly the normalized forms of the seen literal ids (in
order), no two stored channels share a normalized id, and every stored
channel sits under the normalized form of its own literal id. -/
def chanInv (st : MergeState) : Prop :=
  st.output_channels.map Prod.fst = st.seen_channel_ids.map normalize_id ∧
  (st.output_channels.map Prod.fst).Nodup ∧
  ∀ p ∈ st.output_channels, ∃ cid, p.2.get "id" = some cid ∧ p.1 = normalize_id cid

/-! Section: basic lemmas about the tree type -/

/-- Structural induction over the nested tree type. -/
theorem Elem.induct (P : Elem → Prop)
    (h : ∀ t a tx cd ch, (∀ c ∈ ch, P c) → P (Elem.mk t a tx cd ch)) :
    ∀ e, P e
  | .mk t a tx cd ch => h t a tx cd ch (fun c hc => Elem.induct P h c)
termination_by e => sizeOf e
decreasing_by
  have := List.sizeOf_lt_of_mem hc
  simp only [Elem.mk.sizeOf_spec]
  omega

theorem escape_specials_mk (t a tx cd ch) :
    escape_specials (Elem.mk t a tx cd ch) =
      Elem.mk t a tx (if cd ∧ tx.isSome then false else cd)
        (ch.map escape_specials) := by
  rw [escape_specials]
  congr 1
  exact List.attach_map_coe ch escape_specials

theorem escape_ampersands_mk (t a tx cd ch) :
    escape_ampersands (Elem.mk t a tx cd ch) =
      Elem.mk t a (tx.map ampSub) cd (ch.map escape_ampersands) := by
  rw [escape_ampersands]
  congr 1
  exact List.attach_map_coe ch escape_ampersands

theorem final_escape_mk (t a tx cd ch) :
    final_escape (Elem.mk t a tx cd ch) =
      Elem.mk t (a.map (fun p => (p.1, roundtripAttr p.2)))
        (tx.map (fun s => if cd then s else roundtripText s)) false
        (ch.map final_escape) := by
  rw [final_escape]
  congr 1
  exact List.attach_map_coe ch final_escape

theorem serializeElem_mk (t a tx cd ch) :
    serializeElem (Elem.mk t a tx cd ch) =
      "<" ++ t ++
        String.join (a.map (fun p => " " ++ p.1 ++ "=\"" ++ ⟨xmlEscapeAttr p.2.data⟩ ++ "\"")) ++
        ">" ++
        (match tx with
         | some s => if cd then "<![CDATA[" ++ s ++ "]]>" else ⟨xmlEscapeText s.data⟩
         | none => "") ++
        String.join (ch.map serializeElem) ++ "</" ++ t ++ ">" := by
  rw [serializeElem.eq_def]
  simp only [List.attach_map_coe]

/-! Section: generic list helpers -/

theorem map_eq_self_of {α} {l : List α} {f : α → α} (h : ∀ x ∈ l, f x = x) :
    l.map f = l := by
  induction l with
  | nil => rfl
  | cons x xs ih =>
    simp only [List.map_cons, h x (List.mem_cons_self x xs)]
    rw [ih (fun y hy => h y (List.mem_cons_of_mem x hy))]

theorem filterMap_eq_self_of {α} {l : List α} {f : α → Option α}
    (h : ∀ x ∈ l, f x = some x) : l.filterMap f = l := by
  induction l with
  | nil => rfl
  | cons x xs ih =>
    rw [List.filterMap_cons, h x (List.mem_cons_self x xs),
      ih (fun y hy => h y (List.mem_cons_of_mem x hy))]

/-! Section: attribute dictionary lemmas -/

theorem attrGet_cons (p : String × String) (rest : List (String × String)) (k : String) :
    attrGet (p :: rest) k = if p.1 = k then some p.2 else attrGet rest k := by
  by_cases hp : p.1 = k <;> simp [attrGet, List.find?_cons, hp]

theorem attrGet_map_set_same (attrs : List (String × String)) (k v : String)
    (hany : attrs.any (fun p => p.1 = k) = true) :
    attrGet (attrs.map (fun p => if p.1 = k then (k, v) else p)) k = some v := by
  induction attrs with
  | nil => simp at hany
  | cons p rest ih =>
    by_cases hp : p.1 = k
    · simp [if_pos hp, attrGet_cons]
    · simp only [List.any_cons, Bool.or_eq_true, decide_eq_true_eq, hp, false_or]
        at hany
      simp only [List.map_cons, if_neg hp, attrGet_cons, hp, if_false]
      exact ih hany

theorem attrGet_map_set_ne (attrs : List (String × String)) (k k' v : String)
    (h : k' ≠ k) :
    attrGet (attrs.map (fun p => if p.1 = k then (k, v) else p)) k' =
      attrGet attrs k' := by
  induction attrs with
  | nil => rfl
  | cons p rest ih =>
    by_cases hp : p.1 = k
    · have hpk : p.1 ≠ k' := by rw [hp]; exact fun hh => h hh.symm
      simp only [List.map_cons, if_pos hp, attrGet_cons, if_neg hpk]
      rw [if_neg (fun hh : k = k' => h hh.symm)]
      exact ih
    · simp only [List.map_cons, if_neg hp, attrGet_cons]
      by_cases hq : p.1 = k'
      · simp [hq]
      · simp only [if_neg hq]
        exact ih

theorem attrGet_set_same (attrs : List (String × String)) (k v : String) :
    attrGet (attrSet attrs k v) k = some v := by
  unfold attrSet
  split
  · exact attrGet_map_set_same attrs k v (by assumption)
  · rename_i hany
    induction attrs with
    | nil =>
      rw [List.nil_append, attrGet_cons, if_pos rfl]
    | cons p rest ih =>
      simp only [List.any_cons, Bool.or_eq_true, decide_eq_true_eq, not_or] at hany
      rw [List.cons_append, attrGet_cons, if_neg hany.1]
      exact ih (by simpa using hany.2)

theorem attrGet_set_ne (attrs : List (String × String)) (k k' v : String)
    (h : k' ≠ k) : attrGet (attrSet attrs k v) k' = attrGet attrs k' := by
  unfold attrSet
  split
  · exact attrGet_map_set_ne attrs k k' v h
  · rename_i hany
    induction attrs with
    | nil =>
      rw [List.nil_append, attrGet_cons, if_neg (fun hh : k = k' => h hh.symm)]
    | cons p rest ih =>
      simp only [List.any_cons, Bool.or_eq_true, decide_eq_true_eq, not_or] at hany
      rw [List.cons_append, attrGet_cons, attrGet_cons]
      by_cases hq : p.1 = k'
      · simp [hq]
      · rw [if_neg hq, if_neg hq]
        exact ih (by simpa using hany.2)

/-! Section: basic element lemmas -/

theorem Elem.tag_set (e : Elem) (k v : String) : (e.set k v).tag = e.tag := by
  cases e; rfl

theorem Elem.text_set (e : Elem) (k v : String) : (e.set k v).text = e.text := by
  cases e; rfl

theorem Elem.isCData_set (e : Elem) (k v : String) :
    (e.set k v).isCData = e.isCData := by
  cases e; rfl

theorem Elem.children_set (e : Elem) (k v : String) :
    (e.set k v).children = e.children := by
  cases e; rfl

theorem Elem.get_set_same (e : Elem) (k v : String) :
    (e.set k v).get k = some v := by
  cases e
  exact attrGet_set_same _ k v

theorem Elem.get_set_ne (e : Elem) (k k' v : String) (h : k' ≠ k) :
    (e.set k v).get k' = e.get k' := by
  cases e
  exact attrGet_set_ne _ k k' v h

theorem Elem.children_withChildren (e : Elem) (ch : List Elem) :
    (e.withChildren ch).children = ch := by
  cases e; rfl

theorem Elem.tag_withChildren (e : Elem) (ch : List Elem) :
    (e.withChildren ch).tag = e.tag := by
  cases e; rfl

theorem Elem.withChildren_self (e : Elem) : e.withChildren e.children = e := by
  cases e; rfl

theorem Elem.withChildren_withChildren (e : Elem) (c1 c2 : List Elem) :
    (e.withChildren c1).withChildren c2 = e.withChildren c2 := by
  cases e; rfl

/-! Section: character facts -/

theorem isSign_not_digit {c : Char} (h : isSign c = true) : c.isDigit = false := by
  rcases Bool.or_eq_true _ _ |>.mp h with h1 | h1 <;>
    rw [decide_eq_true_eq] at h1 <;> subst h1 <;> decide

theorem digit_ne_colon {c : Char} (h : c.isDigit = true) : c ≠ ':' := by
  intro he; subst he; simp at h

theorem digitChar_isDigit {k : Nat} (h : k < 10) :
    (Char.ofNat (48 + k)).isDigit = true := by
  interval_cases k <;> decide

theorem natToDigits_all_digits (n : Nat) :
    ∀ x ∈ natToDigits n, x.isDigit = true := by
  induction n using Nat.strong_induction_on with
  | _ n ih =>
    rw [natToDigits]
    split
    · intro x hx
      rw [List.mem_singleton] at hx
      subst hx
      exact digitChar_isDigit (by omega)
    · rename_i hge
      intro x hx
      rcases List.mem_append.mp hx with hx | hx
      · exact ih (n / 10) (Nat.div_lt_self (by omega) (by omega)) x hx
      · rw [List.mem_singleton] at hx
        subst hx
        exact digitChar_isDigit (Nat.mod_lt _ (by omega))

theorem pad14_all_digits (v : Nat) : ∀ x ∈ pad14 v, x.isDigit = true := by
  intro x hx
  rcases List.mem_append.mp hx with hx | hx
  · rw [List.eq_of_mem_replicate hx]; decide
  · exact natToDigits_all_digits v x hx

/-! Section: `tzSub` lemmas -/

theorem tzSub_of_ne_colon (s : String) (h : s.data.reverse[2]? ≠ some ':') :
    tzSub s = s := by
  unfold tzSub
  split
  · rename_i m2 m1 colon h2 h1 sg pre heq
    rw [heq] at h
    have hc : colon ≠ ':' := fun he => h (by rw [he]; rfl)
    rw [if_neg (fun hco => hc hco.1), if_neg (fun hco => hc hco.1)]
  · rename_i m2 m1 colon h2 h1 heq
    rw [heq] at h
    have hc : colon ≠ ':' := fun he => h (by rw [he]; rfl)
    rw [if_neg (fun hco => hc hco.1)]
  · rfl

/-- Any string whose third-from-last character is a digit (in particular
any value ending in a canonical `±HHMM` offset) is untouched. -/
theorem tzSub_suffix5 (s : String) (l : List Char) (a b c d e : Char)
    (hdata : s.data = l ++ [a, b, c, d, e]) (hc : c.isDigit = true) :
    tzSub s = s := by
  apply tzSub_of_ne_colon
  rw [hdata, List.reverse_append]
  intro hcol
  have : c = ':' := by
    simpa using hcol
  exact digit_ne_colon hc this

/-- Untouched on a value all of whose characters are digits. -/
theorem tzSub_digits_of_all (s : String)
    (h : ∀ x ∈ s.data, x.isDigit = true) : tzSub s = s := by
  apply tzSub_of_ne_colon
  cases hx : s.data.reverse[2]? with
  | none => simp
  | some c =>
    have hmem : c ∈ s.data.reverse := by
      rcases List.getElem?_eq_some_iff.mp hx with ⟨hlt, hget⟩
      exact hget ▸ List.getElem_mem _
    intro hcol
    have hcc : c = ':' := by simpa using hcol
    exact digit_ne_colon (h c (List.mem_reverse.mp hmem)) hcc

/-- The single-digit-hour colon form is rewritten to the zero-padded,
colon-free canonical form, for any prefix. -/
theorem tzSub_one_digit (pre : List Char) (sg h m1 m2 : Char)
    (hsg : isSign sg = true) (hh : h.isDigit = true)
    (hm1 : m1.isDigit = true) (hm2 : m2.isDigit = true) :
    tzSub ⟨pre ++ [sg, h, ':', m1, m2]⟩ = ⟨pre ++ [sg, '0', h, m1, m2]⟩ := by
  unfold tzSub
  split
  · rename_i m2x m1x colonx h2x h1x sgx prex heq
    simp only [List.reverse_append, List.reverse_cons, List.reverse_nil,
      List.nil_append, List.cons_append, List.append_assoc, List.cons.injEq] at heq
    obtain ⟨e1, e2, e3, e4, e5, e6⟩ := heq
    subst e1; subst e2; subst e3; subst e4; subst e5
    rw [if_neg (fun hco => by
      have hd := hco.2.2.2.2.1
      rw [isSign_not_digit hsg] at hd
      exact Bool.false_ne_true hd)]
    rw [if_pos ⟨rfl, hm2, hm1, hh, hsg⟩]
    have hpre : (sgx :: prex).reverse = pre := by
      rw [← e6]
      simp
    rw [hpre]
  · rename_i m2x m1x colonx h2x h1x heq
    simp only [List.reverse_append, List.reverse_cons, List.reverse_nil,
      List.nil_append, List.cons_append, List.cons.injEq] at heq
    obtain ⟨e1, e2, e3, e4, e5⟩ := heq
    subst e1; subst e2; subst e3; subst e4
    rcases e5 with ⟨e5a, e5b⟩
    subst e5a
    have hpre : pre = [] := by
      have := congrArg List.reverse e5b
      simpa using this
    subst hpre
    rw [if_pos ⟨rfl, hm2, hm1, hh, hsg⟩]
    rfl
  · rename_i xlong x5
    exfalso
    rcases hp : pre.reverse with _ | ⟨q, qs⟩
    · exact x5 m2 m1 ':' h sg (by simp [hp])
    · exact xlong m2 m1 ':' h sg q qs (by simp [hp])

/-- The two-digit-hour colon form: `int(hh)` re-rendered `%02d` is `hh`
itself, so the rewrite just deletes the colon. -/
theorem tzSub_two_digit (pre : List Char) (sg h1 h2 m1 m2 : Char)
    (hsg : isSign sg = true) (hh1 : h1.isDigit = true) (hh2 : h2.isDigit = true)
    (hm1 : m1.isDigit = true) (hm2 : m2.isDigit = true) :
    tzSub ⟨pre ++ [sg, h1, h2, ':', m1, m2]⟩ = ⟨pre ++ [sg, h1, h2, m1, m2]⟩ := by
  unfold tzSub
  split
  · rename_i m2x m1x colonx h2x h1x sgx prex heq
    simp only [List.reverse_append, List.reverse_cons, List.reverse_nil,
      List.nil_append, List.cons_append, List.append_assoc, List.cons.injEq] at heq
    obtain ⟨e1, e2, e3, e4, e5, e6a, e6b⟩ := heq
    subst e1; subst e2; subst e3; subst e4; subst e5; subst e6a; subst e6b
    rw [if_pos ⟨rfl, hm2, hm1, hh2, hh1, hsg⟩]
    simp
  · rename_i m2x m1x colonx h2x h1x heq
    exfalso
    simp only [List.reverse_append, List.reverse_cons, List.reverse_nil,
      List.nil_append, List.cons_append, List.cons.injEq] at heq
    obtain ⟨e1, e2, e3, e4, e5⟩ := heq
    rcases e5 with ⟨e5a, e5b⟩
    have := congrArg List.length e5b
    simp at this
  · rename_i xlong x5
    exfalso
    exact xlong m2 m1 ':' h2 h1 sg (pre.reverse) (by simp)

/-- Shape of the substitution result: unchanged, or ending in a
five-character block whose middle character is a digit (so no colon can
sit in matchable position). -/
theorem tzSub_result (s : String) :
    tzSub s = s ∨
      ∃ l a b c d e, tzSub s = ⟨l ++ [a, b, c, d, e]⟩ ∧ c.isDigit = true := by
  unfold tzSub
  split
  · rename_i m2 m1 colon h2 h1 sg pre heq
    by_cases hc1 : colon = ':' ∧ m2.isDigit = true ∧ m1.isDigit = true ∧
        h2.isDigit = true ∧ h1.isDigit = true ∧ isSign sg = true
    · rw [if_pos hc1]
      exact Or.inr ⟨pre.reverse, sg, h1, h2, m1, m2, rfl, hc1.2.2.2.1⟩
    · rw [if_neg hc1]
      by_cases hc2 : colon = ':' ∧ m2.isDigit = true ∧ m1.isDigit = true ∧
          h2.isDigit = true ∧ isSign h1 = true
      · rw [if_pos hc2]
        exact Or.inr ⟨(sg :: pre).reverse, h1, '0', h2, m1, m2, rfl, hc2.2.2.2.1⟩
      · rw [if_neg hc2]
        exact Or.inl rfl
  · rename_i m2 m1 colon h2 h1 heq
    by_cases hc2 : colon = ':' ∧ m2.isDigit = true ∧ m1.isDigit = true ∧
        h2.isDigit = true ∧ isSign h1 = true
    · rw [if_pos hc2]
      exact Or.inr ⟨[], h1, '0', h2, m1, m2, rfl, hc2.2.2.2.1⟩
    · rw [if_neg hc2]
      exact Or.inl rfl
  · exact Or.inl rfl

theorem tzSub_idem (s : String) : tzSub (tzSub s) = tzSub s := by
  rcases tzSub_result s with h | ⟨l, a, b, c, d, e, hdata, hc⟩
  · rw [h, h]
  · exact tzSub_suffix5 _ l a b c d e (by rw [hdata]) hc

/-! Section: `sciParse` and `sciSub` lemmas -/

theorem isPySpace_not_digit {c : Char} (h : isPySpace c = true) :
    c.isDigit = false := by
  unfold isPySpace at h
  rcases Bool.or_eq_true _ _ |>.mp h with h1 | h1
  · rcases Bool.or_eq_true _ _ |>.mp h1 with h2 | h2
    · rcases Bool.or_eq_true _ _ |>.mp h2 with h3 | h3
      · rcases Bool.or_eq_true _ _ |>.mp h3 with h4 | h4
        · rcases Bool.or_eq_true _ _ |>.mp h4 with h5 | h5 <;>
            rw [decide_eq_true_eq] at h5 <;> subst h5 <;> decide
        · rw [decide_eq_true_eq] at h4; subst h4; decide
      · rw [decide_eq_true_eq] at h3; subst h3; decide
    · rw [decide_eq_true_eq] at h2; subst h2; decide
  · rw [decide_eq_true_eq] at h1; subst h1; decide

theorem isSign_not_space {c : Char} (h : isSign c = true) :
    isPySpace c = false := by
  rcases Bool.or_eq_true _ _ |>.mp h with h1 | h1 <;>
    rw [decide_eq_true_eq] at h1 <;> subst h1 <;> decide

theorem natToDigits_ne_nil (n : Nat) : natToDigits n ≠ [] := by
  rw [natToDigits]
  split <;> simp

theorem pad14_ne_nil (v : Nat) : pad14 v ≠ [] := by
  unfold pad14
  intro h
  rcases List.append_eq_nil.mp h with ⟨_, h2⟩
  exact natToDigits_ne_nil v h2

/-- The rewritten value (digits, then nothing or a sign-led offset
block) never matches `sci_full` again. -/
theorem sciParse_pad_none (A B : List Char) (hA : ∀ x ∈ A, x.isDigit = true)
    (hB : B = [] ∨ ∃ sg rest, B = sg :: rest ∧ sg.isDigit = false ∧ sg ≠ '.') :
    sciParse (A ++ B) = none := by
  unfold sciParse
  rcases hB with hB | ⟨sg, rest, hB, hsgd, hsgdot⟩
  · subst hB
    rw [List.append_nil]
    have ht : A.takeWhile Char.isDigit = A := by
      have := @List.takeWhile_append_of_pos Char Char.isDigit A [] hA
      simpa using this
    simp only [ht]
    split
    · rfl
    · rw [List.drop_length]
  · subst hB
    have ht : (A ++ sg :: rest).takeWhile Char.isDigit = A := by
      rw [List.takeWhile_append_of_pos hA, List.takeWhile_cons, hsgd]
      simp
    simp only [ht]
    split
    · rfl
    · rw [List.drop_left]
      simp [hsgdot]

/-- Parse-of-render, no offset tail: the scientific form is recognized
with the expected captures. -/
theorem sciParse_render_nosuffix (d1 d2 d3 : List Char) (e sg : Char)
    (hd1n : d1 ≠ []) (hd1 : ∀ x ∈ d1, x.isDigit = true)
    (hd2n : d2 ≠ []) (hd2 : ∀ x ∈ d2, x.isDigit = true)
    (hd3n : d3 ≠ []) (hd3 : ∀ x ∈ d3, x.isDigit = true)
    (he : e = 'e' ∨ e = 'E') (hsg : isSign sg = true) :
    sciParse (d1 ++ '.' :: (d2 ++ e :: sg :: d3)) =
      some ⟨d1, d2, sg = '+', d3, []⟩ := by
  have hed : e.isDigit = false := by rcases he with he | he <;> subst he <;> decide
  have ht1 : (d1 ++ '.' :: (d2 ++ e :: sg :: d3)).takeWhile Char.isDigit = d1 := by
    rw [List.takeWhile_append_of_pos hd1, List.takeWhile_cons]
    simp
  have ht2 : (d2 ++ e :: sg :: d3).takeWhile Char.isDigit = d2 := by
    rw [List.takeWhile_append_of_pos hd2, List.takeWhile_cons]
    simp [hed]
  have ht3 : d3.takeWhile Char.isDigit = d3 := by
    have := @List.takeWhile_append_of_pos Char Char.isDigit d3 [] hd3
    simpa using this
  unfold sciParse
  rw [ht1, if_neg hd1n, List.drop_left]
  simp [ht2, hd2n, ht3, hd3n, he, hsg, List.drop_left]

/-- Parse-of-render with an offset tail (whitespace, then sign and four
digits): the offset block is captured, the whitespace is not. -/
theorem sciParse_render_suffix (d1 d2 d3 ws : List Char) (e sg s a b c d : Char)
    (hd1n : d1 ≠ []) (hd1 : ∀ x ∈ d1, x.isDigit = true)
    (hd2n : d2 ≠ []) (hd2 : ∀ x ∈ d2, x.isDigit = true)
    (hd3n : d3 ≠ []) (hd3 : ∀ x ∈ d3, x.isDigit = true)
    (he : e = 'e' ∨ e = 'E') (hsg : isSign sg = true)
    (hws : ∀ x ∈ ws, isPySpace x = true) (hs : isSign s = true)
    (ha : a.isDigit = true) (hb : b.isDigit = true) (hc : c.isDigit = true)
    (hd : d.isDigit = true) :
    sciParse (d1 ++ '.' :: (d2 ++ e :: sg :: (d3 ++ (ws ++ [s, a, b, c, d])))) =
      some ⟨d1, d2, sg = '+', d3, [s, a, b, c, d]⟩ := by
  have hed : e.isDigit = false := by rcases he with he | he <;> subst he <;> decide
  have hwsd : ∀ x ∈ ws, x.isDigit = false := fun x hx => isPySpace_not_digit (hws x hx)
  have htw0 : (ws ++ [s, a, b, c, d]).takeWhile Char.isDigit = [] := by
    cases hw : ws with
    | nil => simp [List.takeWhile_cons, isSign_not_digit hs]
    | cons w wr =>
      have : w.isDigit = false := hwsd w (by rw [hw]; exact List.mem_cons_self w wr)
      simp [List.takeWhile_cons, this]
  have ht1 : (d1 ++ '.' :: (d2 ++ e :: sg :: (d3 ++ (ws ++ [s, a, b, c, d])))).takeWhile
      Char.isDigit = d1 := by
    rw [List.takeWhile_append_of_pos hd1, List.takeWhile_cons]
    simp
  have ht2 : (d2 ++ e :: sg :: (d3 ++ (ws ++ [s, a, b, c, d]))).takeWhile
      Char.isDigit = d2 := by
    rw [List.takeWhile_append_of_pos hd2, List.takeWhile_cons]
    simp [hed]
  have ht3 : (d3 ++ (ws ++ [s, a, b, c, d])).takeWhile Char.isDigit = d3 := by
    rw [List.takeWhile_append_of_pos hd3, htw0, List.append_nil]
  have htw : (ws ++ [s, a, b, c, d]).takeWhile isPySpace = ws := by
    rw [List.takeWhile_append_of_pos hws, List.takeWhile_cons, isSign_not_space hs]
    simp
  have hne : ws ++ [s, a, b, c, d] ≠ [] := by simp
  unfold sciParse
  rw [ht1, if_neg hd1n, List.drop_left]
  simp only [ne_eq]
  simp [ht2, hd2n, ht3, hd3n, he, hsg, htw, hne, hs, ha, hb, hc, hd,
    List.drop_left]

theorem isSign_ne_dot {c : Char} (h : isSign c = true) : c ≠ '.' := by
  rcases Bool.or_eq_true _ _ |>.mp h with h1 | h1 <;>
    rw [decide_eq_true_eq] at h1 <;> subst h1 <;> decide

/-- A successful match captures an offset suffix that is empty or a
sign followed by four digits. -/
theorem sciParse_suffix_shape {l : List Char} {m : SciMatch}
    (h : sciParse l = some m) :
    m.suffix = [] ∨ ∃ sg a b c d, m.suffix = [sg, a, b, c, d] ∧ isSign sg = true ∧
      a.isDigit = true ∧ b.isDigit = true ∧ c.isDigit = true ∧ d.isDigit = true := by
  rw [sciParse] at h
  simp only [] at h
  repeat' split at h
  all_goals first
    | exact Option.noConfusion h
    | (injection h with hm
       subst hm
       first
        | exact Or.inl rfl
        | (rename_i hcond
           exact Or.inr ⟨_, _, _, _, _, rfl, hcond.1, hcond.2.1, hcond.2.2.1,
             hcond.2.2.2.1, hcond.2.2.2.2⟩))

theorem sciSub_eq_none {s : String} (h : sciParse s.data = none) :
    sciSub s = s := by
  unfold sciSub
  rw [h]

theorem sciSub_eq_some {s : String} {m : SciMatch} (h : sciParse s.data = some m) :
    sciSub s = ⟨pad14 (sciVal m) ++ m.suffix⟩ := by
  unfold sciSub
  rw [h]

/-- The value written by `normalize_exponents` never matches again. -/
theorem sciParse_out_none {s : String} {m : SciMatch}
    (h : sciParse s.data = some m) : sciParse (sciSub s).data = none := by
  rw [sciSub_eq_some h]
  apply sciParse_pad_none _ _ (pad14_all_digits _)
  rcases sciParse_suffix_shape h with hs | ⟨sg, a, b, c, d, hs, hsg, _⟩
  · exact Or.inl hs
  · exact Or.inr ⟨sg, [a, b, c, d], by rw [hs], isSign_not_digit hsg,
      isSign_ne_dot hsg⟩

theorem sciSub_idem (s : String) : sciSub (sciSub s) = sciSub s := by
  cases hm : sciParse s.data with
  | none =>
    rw [sciSub_eq_none hm, sciSub_eq_none hm]
  | some m =>
    rw [sciSub_eq_none (sciParse_out_none hm)]

/-- The value written by `normalize_exponents` is inert for the
timezone substitution. -/
theorem tzSub_sciSub_of_some {s : String} {m : SciMatch}
    (h : sciParse s.data = some m) : tzSub (sciSub s) = sciSub s := by
  rw [sciSub_eq_some h]
  rcases sciParse_suffix_shape h with hs | ⟨sg, a, b, c, d, hs, hsg, ha, hb, hc, hd⟩
  · rw [hs, List.append_nil]
    exact tzSub_digits_of_all _ (pad14_all_digits _)
  · rw [hs]
    exact tzSub_suffix5 _ (pad14 (sciVal m)) sg a b c d rfl hb

/-! Section: `ampSub` lemmas -/

theorem isHexDigit_ne_amp {c : Char} (h : isHexDigit c = true) : c ≠ '&' := by
  intro he; subst he; simp [isHexDigit] at h

theorem isDigit_ne_amp {c : Char} (h : c.isDigit = true) : c ≠ '&' := by
  intro he; subst he; simp at h

theorem isAlpha_ne_amp {c : Char} (h : c.isAlpha = true) : c ≠ '&' := by
  intro he; subst he; simp at h

theorem isAlpha_ne_hash {c : Char} (h : c.isAlpha = true) : c ≠ '#' := by
  intro he; subst he; simp at h

theorem ampSubChars_cons_ne {c : Char} (h : c ≠ '&') (rest : List Char) :
    ampSubChars (c :: rest) = c :: ampSubChars rest := by
  conv_lhs => rw [ampSubChars]
  rw [if_neg h]

theorem ampSubChars_no_amp_append {A B : List Char} (hA : ∀ x ∈ A, x ≠ '&') :
    ampSubChars (A ++ B) = A ++ ampSubChars B := by
  induction A with
  | nil => rfl
  | cons c rest ih =>
    rw [List.cons_append, ampSubChars_cons_ne (hA c (List.mem_cons_self c rest)),
      ih (fun x hx => hA x (List.mem_cons_of_mem c hx)), List.cons_append]

theorem ampStable_cons (c : Char) (rest : List Char) :
    ampStable (c :: rest) =
      ((if c = '&' then entityAhead rest else true) && ampStable rest) := rfl

/-- A quantified class run ending in `;` splits off of the scanned text. -/
theorem entity_block {p : Char → Bool} {l : List Char}
    (hsemi : (l.dropWhile p).head? = some ';') :
    ∃ t, l = l.takeWhile p ++ ';' :: t := by
  cases hw : l.dropWhile p with
  | nil => rw [hw] at hsemi; exact absurd hsemi (by simp)
  | cons w wr =>
    rw [hw] at hsemi
    simp only [List.head?_cons, Option.some.injEq] at hsemi
    refine ⟨wr, ?_⟩
    conv_lhs => rw [← List.takeWhile_append_dropWhile p l]
    rw [hw, hsemi]

theorem takeWhile_entity {p : Char → Bool} {ds : List Char}
    (hall : ∀ x ∈ ds, p x = true) (hps : p ';' = false) (u : List Char) :
    (ds ++ ';' :: u).takeWhile p = ds ∧ (ds ++ ';' :: u).dropWhile p = ';' :: u := by
  constructor
  · rw [List.takeWhile_append_of_pos hall, List.takeWhile_cons, hps]
    simp
  · rw [List.dropWhile_append_of_pos hall, List.dropWhile_cons, hps]
    simp

/-- A lookahead match decomposes the text into an entity block (free of
ampersands, and sufficient for the lookahead whatever follows it) and a
remainder. -/
theorem entityAhead_decomp {l : List Char} (h : entityAhead l = true) :
    ∃ E t, l = E ++ t ∧ (∀ x ∈ E, x ≠ '&') ∧
      (∀ u, entityAhead (E ++ u) = true) := by
  unfold entityAhead at h
  split at h
  · rename_i hhash
    obtain ⟨t1, ht1⟩ : ∃ t1, l = '#' :: t1 := by
      cases l with
      | nil => simp at hhash
      | cons a as =>
        simp only [List.head?_cons, Option.some.injEq] at hhash
        exact ⟨as, by rw [hhash]⟩
    split at h
    · rename_i hx
      simp only [Bool.and_eq_true, decide_eq_true_eq, ne_eq] at h
      obtain ⟨hds, hsemi⟩ := h
      obtain ⟨t2, ht2⟩ : ∃ t2, t1 = 'x' :: t2 := by
        rw [ht1] at hx
        cases t1 with
        | nil => simp at hx
        | cons a as =>
          simp only [List.drop_succ_cons, List.drop_zero, List.head?_cons,
            Option.some.injEq] at hx
          exact ⟨as, by rw [hx]⟩
      have hl2 : l.drop 2 = t2 := by rw [ht1, ht2]; rfl
      obtain ⟨t, ht⟩ := entity_block hsemi
      have hall : ∀ x ∈ (l.drop 2).takeWhile isHexDigit, isHexDigit x = true :=
        fun x hx => List.mem_takeWhile_imp hx
      set ds := (l.drop 2).takeWhile isHexDigit with hdsdef
      have hfull : l = '#' :: 'x' :: (ds ++ ';' :: t) := by
        conv_lhs => rw [ht1, ht2]
        congr 1
        congr 1
        rw [← hl2]
        exact ht
      refine ⟨'#' :: 'x' :: ds ++ [';'], t, ?_, ?_, ?_⟩
      · rw [hfull]
        simp
      · intro x hx
        simp at hx
        rcases hx with rfl | rfl | hx | rfl
        · decide
        · decide
        · exact isHexDigit_ne_amp (hall x hx)
        · decide
      · intro u
        rw [show ('#' :: 'x' :: ds ++ [';']) ++ u =
          '#' :: 'x' :: (ds ++ ';' :: u) from by simp]
        unfold entityAhead
        rw [if_pos (by rfl), if_pos (by rfl)]
        obtain ⟨htk, hdw⟩ := takeWhile_entity hall (by decide) u
        simp only [List.drop_succ_cons, List.drop_zero, htk, hdw]
        simp [hds]
    · rename_i hx
      simp only [Bool.and_eq_true, decide_eq_true_eq, ne_eq] at h
      obtain ⟨hds, hsemi⟩ := h
      have hl1 : l.drop 1 = t1 := by rw [ht1]; rfl
      obtain ⟨t, ht⟩ := entity_block hsemi
      have hall : ∀ x ∈ (l.drop 1).takeWhile Char.isDigit, x.isDigit = true :=
        fun x hx => List.mem_takeWhile_imp hx
      set ds := (l.drop 1).takeWhile Char.isDigit with hdsdef
      have hfull : l = '#' :: (ds ++ ';' :: t) := by
        conv_lhs => rw [ht1]
        congr 1
        rw [← hl1]
        exact ht
      refine ⟨'#' :: ds ++ [';'], t, ?_, ?_, ?_⟩
      · rw [hfull]
        simp
      · intro x hx
        simp at hx
        rcases hx with rfl | hx | rfl
        · decide
        · exact isDigit_ne_amp (hall x hx)
        · decide
      · intro u
        rw [show ('#' :: ds ++ [';']) ++ u = '#' :: (ds ++ ';' :: u) from by simp]
        unfold entityAhead
        rw [if_pos (by rfl)]
        obtain ⟨htk, hdw⟩ := takeWhile_entity hall (by decide) u
        have hxne : ((('#' : Char) :: (ds ++ ';' :: u)).drop 1).head? ≠ some 'x' := by
          simp only [List.drop_succ_cons, List.drop_zero]
          cases hdsc : ds with
          | nil => exact absurd hdsc hds
          | cons d0 dr =>
            have hd0 : d0.isDigit = true := by
              apply hall d0
              rw [hdsc]
              exact List.mem_cons_self _ _
            simp only [List.cons_append, List.head?_cons]
            intro hcontra
            rw [Option.some.injEq] at hcontra
            rw [hcontra] at hd0
            simp at hd0
        rw [if_neg hxne]
        simp only [List.drop_succ_cons, List.drop_zero, htk, hdw]
        simp [hds]
  · rename_i hhash
    simp only [Bool.and_eq_true, decide_eq_true_eq, ne_eq] at h
    obtain ⟨hds, hsemi⟩ := h
    obtain ⟨t, ht⟩ := entity_block hsemi
    have hall : ∀ x ∈ l.takeWhile Char.isAlpha, x.isAlpha = true :=
      fun x hx => List.mem_takeWhile_imp hx
    set ds := l.takeWhile Char.isAlpha with hdsdef
    refine ⟨ds ++ [';'], t, ?_, ?_, ?_⟩
    · conv_lhs => rw [ht]
      simp
    · intro x hx
      simp at hx
      rcases hx with hx | rfl
      · exact isAlpha_ne_amp (hall x hx)
      · decide
    · intro u
      rw [show (ds ++ [';']) ++ u = ds ++ ';' :: u from by simp]
      unfold entityAhead
      obtain ⟨htk, hdw⟩ := takeWhile_entity hall (by decide) u
      have hhd : (ds ++ ';' :: u).head? ≠ some '#' := by
        cases hdsc : ds with
        | nil => exact absurd hdsc hds
        | cons d0 dr =>
          have hd0 : d0.isAlpha = true := by
            apply hall d0
            rw [hdsc]
            exact List.mem_cons_self _ _
          simp only [List.cons_append, List.head?_cons]
          intro hcontra
          rw [Option.some.injEq] at hcontra
          exact isAlpha_ne_hash hd0 hcontra
      rw [if_neg hhd]
      simp only [htk, hdw]
      simp [hds]

theorem entityAhead_amp (X : List Char) :
    entityAhead ('a' :: 'm' :: 'p' :: ';' :: X) = true := by
  unfold entityAhead
  rw [if_neg (by simp)]
  simp [List.takeWhile_cons, List.dropWhile_cons]

/-- Every ampersand in the output of the substitution is followed by a
recognized entity shape. -/
theorem ampStable_sub (l : List Char) : ampStable (ampSubChars l) = true := by
  induction l with
  | nil => rfl
  | cons c rest ih =>
    by_cases hc : c = '&'
    · subst hc
      unfold ampSubChars
      rw [if_pos rfl]
      by_cases he : entityAhead rest = true
      · rw [if_pos he]
        obtain ⟨E, t, hEt, hnoamp, hfwd⟩ := entityAhead_decomp he
        rw [ampStable_cons, if_pos rfl]
        rw [Bool.and_eq_true]
        constructor
        · rw [hEt, ampSubChars_no_amp_append hnoamp]
          exact hfwd _
        · exact ih
      · rw [if_neg he]
        rw [ampStable_cons, if_pos rfl, Bool.and_eq_true]
        refine ⟨entityAhead_amp _, ?_⟩
        rw [ampStable_cons, if_neg (by decide), Bool.true_and,
          ampStable_cons, if_neg (by decide), Bool.true_and,
          ampStable_cons, if_neg (by decide), Bool.true_and,
          ampStable_cons, if_neg (by decide), Bool.true_and]
        exact ih
    · rw [ampSubChars_cons_ne hc, ampStable_cons, if_neg hc, Bool.true_and]
      exact ih

/-- A stable text is a fixed point of the substitution. -/
theorem ampStable_fixed {l : List Char} (h : ampStable l = true) :
    ampSubChars l = l := by
  induction l with
  | nil => rfl
  | cons c rest ih =>
    rw [ampStable_cons, Bool.and_eq_true] at h
    by_cases hc : c = '&'
    · subst hc
      rw [if_pos rfl] at h
      unfold ampSubChars
      rw [if_pos rfl, if_pos h.1, ih h.2]
    · rw [ampSubChars_cons_ne hc, ih h.2]

theorem ampSub_idem (s : String) : ampSub (ampSub s) = ampSub s := by
  unfold ampSub
  rw [ampStable_fixed (ampStable_sub s.data)]

/-! Section: escape/unescape round-trip lemmas -/

theorem xmlUnescape_cons_ne {c : Char} (h : c ≠ '&') (rest : List Char) :
    xmlUnescapeChars (c :: rest) = c :: xmlUnescapeChars rest := by
  conv_lhs => rw [xmlUnescapeChars]
  rw [if_neg h]

theorem xmlUnescape_amp (X : List Char) :
    xmlUnescapeChars ('&' :: 'a' :: 'm' :: 'p' :: ';' :: X) =
      '&' :: xmlUnescapeChars X := by
  conv_lhs => rw [xmlUnescapeChars]
  rw [if_pos rfl, if_pos (by simp [List.isPrefixOf])]
  rfl

theorem xmlUnescape_lt (X : List Char) :
    xmlUnescapeChars ('&' :: 'l' :: 't' :: ';' :: X) = '<' :: xmlUnescapeChars X := by
  conv_lhs => rw [xmlUnescapeChars]
  rw [if_pos rfl, if_neg (by simp [List.isPrefixOf]),
    if_pos (by simp [List.isPrefixOf])]
  rfl

theorem xmlUnescape_gt (X : List Char) :
    xmlUnescapeChars ('&' :: 'g' :: 't' :: ';' :: X) = '>' :: xmlUnescapeChars X := by
  conv_lhs => rw [xmlUnescapeChars]
  rw [if_pos rfl, if_neg (by simp [List.isPrefixOf]),
    if_neg (by simp [List.isPrefixOf]), if_pos (by simp [List.isPrefixOf])]
  rfl

theorem xmlUnescape_quot (X : List Char) :
    xmlUnescapeChars ('&' :: 'q' :: 'u' :: 'o' :: 't' :: ';' :: X) =
      '"' :: xmlUnescapeChars X := by
  conv_lhs => rw [xmlUnescapeChars]
  rw [if_pos rfl, if_neg (by simp [List.isPrefixOf]),
    if_neg (by simp [List.isPrefixOf]), if_neg (by simp [List.isPrefixOf]),
    if_pos (by simp [List.isPrefixOf])]
  rfl

theorem xmlUnescape_cr (X : List Char) :
    xmlUnescapeChars ('&' :: '#' :: '1' :: '3' :: ';' :: X) =
      '\x0d' :: xmlUnescapeChars X := by
  conv_lhs => rw [xmlUnescapeChars]
  rw [if_pos rfl, if_neg (by simp [List.isPrefixOf]),
    if_neg (by simp [List.isPrefixOf]), if_neg (by simp [List.isPrefixOf]),
    if_neg (by simp [List.isPrefixOf]), if_neg (by simp [List.isPrefixOf])]
  have hnum : numericRef ('#' :: '1' :: '3' :: ';' :: X) = some ('\x0d', 4) := by
    have h1 : (('1' : Char) :: '3' :: ';' :: X).takeWhile Char.isDigit = ['1', '3'] := by
      simp [List.takeWhile_cons, show ('1' : Char).isDigit = true from by decide,
        show ('3' : Char).isDigit = true from by decide,
        show ((';') : Char).isDigit = false from by decide]
    unfold numericRef
    rw [if_pos (by rfl), if_neg (by simp)]
    simp only [List.drop_succ_cons, List.drop_zero, h1]
    rw [if_pos ⟨by simp, by rfl⟩]
    decide
  rw [hnum]
  rfl

theorem xmlUnescape_lf (X : List Char) :
    xmlUnescapeChars ('&' :: '#' :: '1' :: '0' :: ';' :: X) =
      '\n' :: xmlUnescapeChars X := by
  conv_lhs => rw [xmlUnescapeChars]
  rw [if_pos rfl, if_neg (by simp [List.isPrefixOf]),
    if_neg (by simp [List.isPrefixOf]), if_neg (by simp [List.isPrefixOf]),
    if_neg (by simp [List.isPrefixOf]), if_neg (by simp [List.isPrefixOf])]
  have hnum : numericRef ('#' :: '1' :: '0' :: ';' :: X) = some ('\n', 4) := by
    have h1 : (('1' : Char) :: '0' :: ';' :: X).takeWhile Char.isDigit = ['1', '0'] := by
      simp [List.takeWhile_cons, show ('1' : Char).isDigit = true from by decide,
        show ('0' : Char).isDigit = true from by decide,
        show ((';') : Char).isDigit = false from by decide]
    unfold numericRef
    rw [if_pos (by rfl), if_neg (by simp)]
    simp only [List.drop_succ_cons, List.drop_zero, h1]
    rw [if_pos ⟨by simp, by rfl⟩]
    decide
  rw [hnum]
  rfl

theorem xmlUnescape_tab (X : List Char) :
    xmlUnescapeChars ('&' :: '#' :: '9' :: ';' :: X) =
      '\t' :: xmlUnescapeChars X := by
  conv_lhs => rw [xmlUnescapeChars]
  rw [if_pos rfl, if_neg (by simp [List.isPrefixOf]),
    if_neg (by simp [List.isPrefixOf]), if_neg (by simp [List.isPrefixOf]),
    if_neg (by simp [List.isPrefixOf]), if_neg (by simp [List.isPrefixOf])]
  have hnum : numericRef ('#' :: '9' :: ';' :: X) = some ('\t', 3) := by
    have h1 : (('9' : Char) :: ';' :: X).takeWhile Char.isDigit = ['9'] := by
      simp [List.takeWhile_cons, show ('9' : Char).isDigit = true from by decide,
        show ((';') : Char).isDigit = false from by decide]
    unfold numericRef
    rw [if_pos (by rfl), if_neg (by simp)]
    simp only [List.drop_succ_cons, List.drop_zero, h1]
    rw [if_pos ⟨by simp, by rfl⟩]
    decide
  rw [hnum]
  rfl

theorem xmlEscapeText_cons (c : Char) (rest : List Char) :
    xmlEscapeText (c :: rest) = escTextChar c ++ xmlEscapeText rest := by
  simp [xmlEscapeText]

theorem xmlEscapeAttr_cons (c : Char) (rest : List Char) :
    xmlEscapeAttr (c :: rest) = escAttrChar c ++ xmlEscapeAttr rest := by
  simp [xmlEscapeAttr]

/-- Parsing undoes text escaping. -/
theorem unescape_escapeText (l : List Char) :
    xmlUnescapeChars (xmlEscapeText l) = l := by
  induction l with
  | nil => simp [xmlEscapeText, xmlUnescapeChars]
  | cons c rest ih =>
    rw [xmlEscapeText_cons]
    by_cases h1 : c = '&'
    · subst h1
      rw [show escTextChar '&' = ['&', 'a', 'm', 'p', ';'] from rfl]
      rw [List.cons_append, List.cons_append, List.cons_append, List.cons_append,
        List.cons_append, List.nil_append, xmlUnescape_amp, ih]
    · by_cases h2 : c = '<'
      · subst h2
        rw [show escTextChar '<' = ['&', 'l', 't', ';'] from rfl]
        rw [List.cons_append, List.cons_append, List.cons_append, List.cons_append,
          List.nil_append, xmlUnescape_lt, ih]
      · by_cases h3 : c = '>'
        · subst h3
          rw [show escTextChar '>' = ['&', 'g', 't', ';'] from rfl]
          rw [List.cons_append, List.cons_append, List.cons_append,
            List.cons_append, List.nil_append, xmlUnescape_gt, ih]
        · by_cases h4 : c = '\x0d'
          · subst h4
            rw [show escTextChar '\x0d' = ['&', '#', '1', '3', ';'] from rfl]
            rw [List.cons_append, List.cons_append, List.cons_append,
              List.cons_append, List.cons_append, List.nil_append,
              xmlUnescape_cr, ih]
          · rw [show escTextChar c = [c] from by
              unfold escTextChar
              rw [if_neg h1, if_neg h2, if_neg h3, if_neg h4]]
            rw [List.cons_append, List.nil_append, xmlUnescape_cons_ne h1, ih]

/-- Parsing undoes attribute-value escaping. -/
theorem unescape_escapeAttr (l : List Char) :
    xmlUnescapeChars (xmlEscapeAttr l) = l := by
  induction l with
  | nil => simp [xmlEscapeAttr, xmlUnescapeChars]
  | cons c rest ih =>
    rw [xmlEscapeAttr_cons]
    by_cases h1 : c = '&'
    · subst h1
      rw [show escAttrChar '&' = ['&', 'a', 'm', 'p', ';'] from rfl]
      rw [List.cons_append, List.cons_append, List.cons_append, List.cons_append,
        List.cons_append, List.nil_append, xmlUnescape_amp, ih]
    · by_cases h2 : c = '<'
      · subst h2
        rw [show escAttrChar '<' = ['&', 'l', 't', ';'] from rfl]
        rw [List.cons_append, List.cons_append, List.cons_append, List.cons_append,
          List.nil_append, xmlUnescape_lt, ih]
      · by_cases h3 : c = '>'
        · subst h3
          rw [show escAttrChar '>' = ['&', 'g', 't', ';'] from rfl]
          rw [List.cons_append, List.cons_append, List.cons_append,
            List.cons_append, List.nil_append, xmlUnescape_gt, ih]
        · by_cases h4 : c = '"'
          · subst h4
            rw [show escAttrChar '"' = ['&', 'q', 'u', 'o', 't', ';'] from rfl]
            rw [List.cons_append, List.cons_append, List.cons_append,
              List.cons_append, List.cons_append, List.cons_append,
              List.nil_append, xmlUnescape_quot, ih]
          · by_cases h5 : c = '\n'
            · subst h5
              rw [show escAttrChar '\n' = ['&', '#', '1', '0', ';'] from rfl]
              rw [List.cons_append, List.cons_append, List.cons_append,
                List.cons_append, List.cons_append, List.nil_append,
                xmlUnescape_lf, ih]
            · by_cases h6 : c = '\t'
              · subst h6
                rw [show escAttrChar '\t' = ['&', '#', '9', ';'] from rfl]
                rw [List.cons_append, List.cons_append, List.cons_append,
                  List.cons_append, List.nil_append, xmlUnescape_tab, ih]
              · by_cases h7 : c = '\x0d'
                · subst h7
                  rw [show escAttrChar '\x0d' = ['&', '#', '1', '3', ';'] from rfl]
                  rw [List.cons_append, List.cons_append, List.cons_append,
                    List.cons_append, List.cons_append, List.nil_append,
                    xmlUnescape_cr, ih]
                · rw [show escAttrChar c = [c] from by
                    unfold escAttrChar
                    rw [if_neg h1, if_neg h2, if_neg h3, if_neg h4, if_neg h5,
                      if_neg h6, if_neg h7]]
                  rw [List.cons_append, List.nil_append,
                    xmlUnescape_cons_ne h1, ih]

/-! Section: attribute-step lemmas for the timezone/exponent passes -/

theorem fixAttrWith_cases (f : String → String) (a : String) (e : Elem) :
    fixAttrWith f a e = e ∨ ∃ v, fixAttrWith f a e = e.set a v := by
  unfold fixAttrWith
  cases hg : e.get a with
  | none => exact Or.inl rfl
  | some ts =>
    by_cases hc : ts ≠ "" ∧ f ts ≠ ts
    · exact Or.inr ⟨f ts, if_pos hc⟩
    · exact Or.inl (if_neg hc)

theorem fixAttrWith_get_same (f : String → String) (a : String) (e : Elem)
    (hf : f "" = "") : (fixAttrWith f a e).get a = (e.get a).map f := by
  unfold fixAttrWith
  cases hg : e.get a with
  | none => simp [hg]
  | some ts =>
    simp only [hg]
    split
    · rw [Elem.get_set_same]
      rfl
    · rename_i hc
      rw [hg]
      by_cases hts : ts = ""
      · subst hts
        simp [hf]
      · have hfix : f ts = ts := by
          by_contra hne
          exact hc ⟨hts, hne⟩
        simp [hfix]

theorem fixAttrWith_get_ne (f : String → String) (a b : String) (e : Elem)
    (h : b ≠ a) : (fixAttrWith f a e).get b = e.get b := by
  rcases fixAttrWith_cases f a e with hc | ⟨v, hc⟩ <;> rw [hc]
  exact Elem.get_set_ne e a b v h

theorem fixAttrWith_tag (f : String → String) (a : String) (e : Elem) :
    (fixAttrWith f a e).tag = e.tag := by
  rcases fixAttrWith_cases f a e with hc | ⟨v, hc⟩ <;> rw [hc]
  exact Elem.tag_set e a v

theorem fixAttrWith_text (f : String → String) (a : String) (e : Elem) :
    (fixAttrWith f a e).text = e.text := by
  rcases fixAttrWith_cases f a e with hc | ⟨v, hc⟩ <;> rw [hc]
  exact Elem.text_set e a v

theorem fixAttrWith_isCData (f : String → String) (a : String) (e : Elem) :
    (fixAttrWith f a e).isCData = e.isCData := by
  rcases fixAttrWith_cases f a e with hc | ⟨v, hc⟩ <;> rw [hc]
  exact Elem.isCData_set e a v

theorem fixAttrWith_children (f : String → String) (a : String) (e : Elem) :
    (fixAttrWith f a e).children = e.children := by
  rcases fixAttrWith_cases f a e with hc | ⟨v, hc⟩ <;> rw [hc]
  exact Elem.children_set e a v

theorem fixAttrWith_eq_self (f : String → String) (a : String) (e : Elem)
    (h : ∀ ts, e.get a = some ts → f ts = ts) : fixAttrWith f a e = e := by
  unfold fixAttrWith
  cases hg : e.get a with
  | none => rfl
  | some ts =>
    simp only [hg]
    rw [if_neg (fun hc => hc.2 (h ts hg))]

theorem sciParse_empty : sciParse ("" : String).data = none := by decide

theorem expFixAttr_cases (a : String) (e : Elem) :
    expFixAttr a e = e ∨ ∃ v, expFixAttr a e = e.set a v := by
  unfold expFixAttr
  cases sciParse ((e.get a).getD "").data with
  | none => exact Or.inl rfl
  | some m => exact Or.inr ⟨_, rfl⟩

theorem expFixAttr_get_same (a : String) (e : Elem) :
    (expFixAttr a e).get a = (e.get a).map sciSub := by
  unfold expFixAttr
  cases hg : e.get a with
  | none => exact hg
  | some v =>
    cases hm : sciParse v.data with
    | none =>
      have hred : (match sciParse ((some v).getD "").data with
          | some m => e.set a (⟨pad14 (sciVal m) ++ m.suffix⟩ : String)
          | none => e) = e := by
        simp only [Option.getD_some, hm]
      rw [hred, hg]
      simp [sciSub_eq_none hm]
    | some m =>
      have hred : (match sciParse ((some v).getD "").data with
          | some mm => e.set a (⟨pad14 (sciVal mm) ++ mm.suffix⟩ : String)
          | none => e) = e.set a (⟨pad14 (sciVal m) ++ m.suffix⟩ : String) := by
        simp only [Option.getD_some, hm]
      rw [hred, Elem.get_set_same]
      simp [sciSub_eq_some hm]

theorem expFixAttr_get_ne (a b : String) (e : Elem) (h : b ≠ a) :
    (expFixAttr a e).get b = e.get b := by
  rcases expFixAttr_cases a e with hc | ⟨v, hc⟩ <;> rw [hc]
  exact Elem.get_set_ne e a b v h

theorem expFixAttr_tag (a : String) (e : Elem) :
    (expFixAttr a e).tag = e.tag := by
  rcases expFixAttr_cases a e with hc | ⟨v, hc⟩ <;> rw [hc]
  exact Elem.tag_set e a v

theorem expFixAttr_text (a : String) (e : Elem) :
    (expFixAttr a e).text = e.text := by
  rcases expFixAttr_cases a e with hc | ⟨v, hc⟩ <;> rw [hc]
  exact Elem.text_set e a v

theorem expFixAttr_isCData (a : String) (e : Elem) :
    (expFixAttr a e).isCData = e.isCData := by
  rcases expFixAttr_cases a e with hc | ⟨v, hc⟩ <;> rw [hc]
  exact Elem.isCData_set e a v

theorem expFixAttr_children (a : String) (e : Elem) :
    (expFixAttr a e).children = e.children := by
  rcases expFixAttr_cases a e with hc | ⟨v, hc⟩ <;> rw [hc]
  exact Elem.children_set e a v

theorem expFixAttr_eq_self (a : String) (e : Elem)
    (h : ∀ ts, e.get a = some ts → sciParse ts.data = none) :
    expFixAttr a e = e := by
  unfold expFixAttr
  cases hg : e.get a with
  | none => rfl
  | some v =>
    have hred : (match sciParse ((some v).getD "").data with
        | some m => e.set a (⟨pad14 (sciVal m) ++ m.suffix⟩ : String)
        | none => e) = e := by
      simp only [Option.getD_some, h v hg]
    exact hred

/-! Section: dictLookup and pruneChild lemmas -/

theorem dictLookup_norm_map {seen : List String} {k v : String}
    (h : dictLookup (norm_map seen) k = some v) :
    v ∈ seen ∧ normalize_id v = k := by
  unfold dictLookup at h
  cases hf : (norm_map seen).reverse.find? (fun p => p.1 = k) with
  | none => rw [hf] at h; exact absurd h (by simp)
  | some p =>
    rw [hf] at h
    simp only [Option.map_some', Option.some.injEq] at h
    subst h
    have hpred := List.find?_some hf
    have hmem := List.mem_of_find?_eq_some hf
    rw [List.mem_reverse] at hmem
    unfold norm_map at hmem
    rw [List.mem_map] at hmem
    obtain ⟨cid, hcid, hp⟩ := hmem
    rw [decide_eq_true_eq] at hpred
    constructor
    · rw [← hp]
      exact hcid
    · rw [← hp] at hpred ⊢
      exact hpred

theorem dictLookup_norm_map_self {seen : List String} {k v : String}
    (h : dictLookup (norm_map seen) k = some v) :
    dictLookup (norm_map seen) (normalize_id v) = some v := by
  rw [(dictLookup_norm_map h).2]
  exact h

theorem pruneChild_non_prog {seen : List String} {c : Elem}
    (h : ¬c.tag = "programme") : pruneChild seen c = some c := by
  unfold pruneChild
  rw [if_neg h]

/-- A child kept by the pruning is kept unchanged by a second pruning. -/
theorem pruneChild_kept {seen : List String} {c c' : Elem}
    (h : pruneChild seen c = some c') : pruneChild seen c' = some c' := by
  by_cases hp : c.tag = "programme"
  · unfold pruneChild at h
    rw [if_pos hp] at h
    cases hl : dictLookup (norm_map seen) (normalize_id ((c.get "channel").getD "")) with
    | none => rw [hl] at h; exact absurd h (by simp)
    | some canonical =>
      rw [hl] at h
      simp only [Option.some.injEq] at h
      have hch : c'.get "channel" = some canonical := by
        rw [← h]
        split
        · rename_i hraw
          rw [← hraw]
        · exact Elem.get_set_same c "channel" canonical
      have htag : c'.tag = "programme" := by
        rw [← h]
        split
        · exact hp
        · rw [Elem.tag_set]; exact hp
      unfold pruneChild
      rw [if_pos htag, hch]
      simp only [Option.getD_some]
      rw [dictLookup_norm_map_self hl]
      simp
  · rw [pruneChild_non_prog hp] at h
    simp only [Option.some.injEq] at h
    subst h
    exact pruneChild_non_prog hp

theorem roundtripText_id (s : String) : roundtripText s = s := by
  unfold roundtripText
  rw [unescape_escapeText]

theorem roundtripAttr_id (s : String) : roundtripAttr s = s := by
  unfold roundtripAttr
  rw [unescape_escapeAttr]

/-! Section: projections of the deep passes -/

theorem clearCData_mk (t a tx cd ch) :
    clearCData (Elem.mk t a tx cd ch) = Elem.mk t a tx false (ch.map clearCData) := by
  rw [clearCData]
  congr 1
  exact List.attach_map_coe ch clearCData

theorem escape_specials_tag (e : Elem) : (escape_specials e).tag = e.tag := by
  cases e; rw [escape_specials_mk]; rfl

theorem escape_specials_get (e : Elem) (k : String) :
    (escape_specials e).get k = e.get k := by
  cases e; rw [escape_specials_mk]; rfl

theorem escape_specials_children (e : Elem) :
    (escape_specials e).children = e.children.map escape_specials := by
  cases e; rw [escape_specials_mk]; rfl

theorem escape_ampersands_tag (e : Elem) : (escape_ampersands e).tag = e.tag := by
  cases e; rw [escape_ampersands_mk]; rfl

theorem escape_ampersands_get (e : Elem) (k : String) :
    (escape_ampersands e).get k = e.get k := by
  cases e; rw [escape_ampersands_mk]; rfl

theorem escape_ampersands_children (e : Elem) :
    (escape_ampersands e).children = e.children.map escape_ampersands := by
  cases e; rw [escape_ampersands_mk]; rfl

theorem clearCData_tag (e : Elem) : (clearCData e).tag = e.tag := by
  cases e; rw [clearCData_mk]; rfl

theorem clearCData_get (e : Elem) (k : String) :
    (clearCData e).get k = e.get k := by
  cases e; rw [clearCData_mk]; rfl

theorem clearCData_children (e : Elem) :
    (clearCData e).children = e.children.map clearCData := by
  cases e; rw [clearCData_mk]; rfl

/-- The serialize/re-parse round-trip only clears CDATA markers. -/
theorem final_escape_eq_clearCData (e : Elem) : final_escape e = clearCData e := by
  induction e using Elem.induct with
  | _ t a tx cd ch ih =>
    rw [final_escape_mk]
    rw [show clearCData (Elem.mk t a tx cd ch) =
      Elem.mk t a tx false (ch.map clearCData) from by
        rw [clearCData]
        congr 1
        exact List.attach_map_coe ch clearCData]
    have ha : a.map (fun p => (p.1, roundtripAttr p.2)) = a :=
      map_eq_self_of (fun p _ => by rw [roundtripAttr_id])
    have htx : tx.map (fun s => if cd then s else roundtripText s) = tx := by
      cases tx with
      | none => rfl
      | some s => cases cd <;> simp [roundtripText_id]
    rw [ha, htx, List.map_congr_left ih]

/-! Section: idempotence of every normalization pass -/

theorem tzSub_empty : tzSub "" = "" := rfl

theorem tzStep_get_start (c : Elem) :
    (fixAttrWith tzSub "stop" (fixAttrWith tzSub "start" c)).get "start" =
      (c.get "start").map tzSub := by
  rw [fixAttrWith_get_ne _ _ _ _ (by decide),
    fixAttrWith_get_same _ _ _ tzSub_empty]

theorem tzStep_get_stop (c : Elem) :
    (fixAttrWith tzSub "stop" (fixAttrWith tzSub "start" c)).get "stop" =
      (c.get "stop").map tzSub := by
  rw [fixAttrWith_get_same _ _ _ tzSub_empty,
    fixAttrWith_get_ne _ _ _ _ (by decide)]

theorem tzStep_stable_start (c : Elem) (ts : String)
    (h : (fixAttrWith tzSub "stop" (fixAttrWith tzSub "start" c)).get "start" =
      some ts) : tzSub ts = ts := by
  rw [tzStep_get_start] at h
  cases ho : c.get "start" with
  | none => rw [ho] at h; exact absurd h (by simp)
  | some o =>
    rw [ho] at h
    simp only [Option.map_some', Option.some.injEq] at h
    rw [← h]
    exact tzSub_idem o

theorem tzStep_stable_stop (c : Elem) (ts : String)
    (h : (fixAttrWith tzSub "stop" (fixAttrWith tzSub "start" c)).get "stop" =
      some ts) : tzSub ts = ts := by
  rw [tzStep_get_stop] at h
  cases ho : c.get "stop" with
  | none => rw [ho] at h; exact absurd h (by simp)
  | some o =>
    rw [ho] at h
    simp only [Option.map_some', Option.some.injEq] at h
    rw [← h]
    exact tzSub_idem o

theorem tzStep_idem (c : Elem) :
    fixAttrWith tzSub "stop" (fixAttrWith tzSub "start"
      (fixAttrWith tzSub "stop" (fixAttrWith tzSub "start" c))) =
    fixAttrWith tzSub "stop" (fixAttrWith tzSub "start" c) := by
  rw [fixAttrWith_eq_self _ _ _ (tzStep_stable_start c)]
  exact fixAttrWith_eq_self _ _ _ (tzStep_stable_stop c)

theorem normalize_timezones_idem (t : Elem) :
    normalize_timezones (normalize_timezones t) = normalize_timezones t := by
  unfold normalize_timezones
  rw [Elem.children_withChildren, Elem.withChildren_withChildren]
  congr 1
  rw [List.map_map]
  apply List.map_congr_left
  intro c _
  by_cases hp : c.tag = "programme"
  · have htag : (fixAttrWith tzSub "stop" (fixAttrWith tzSub "start" c)).tag =
        "programme" := by
      rw [fixAttrWith_tag, fixAttrWith_tag]; exact hp
    simp only [Function.comp_apply, if_pos hp, if_pos htag]
    exact tzStep_idem c
  · simp only [Function.comp_apply, if_neg hp]

theorem sciSub_sciSub_none (o : String) : sciParse (sciSub o).data = none := by
  cases hm : sciParse o.data with
  | none => rw [sciSub_eq_none hm]; exact hm
  | some m => exact sciParse_out_none hm

theorem expStep_get_start (c : Elem) :
    (expFixAttr "stop" (expFixAttr "start" c)).get "start" =
      (c.get "start").map sciSub := by
  rw [expFixAttr_get_ne _ _ _ (by decide), expFixAttr_get_same]

theorem expStep_get_stop (c : Elem) :
    (expFixAttr "stop" (expFixAttr "start" c)).get "stop" =
      (c.get "stop").map sciSub := by
  rw [expFixAttr_get_same, expFixAttr_get_ne _ _ _ (by decide)]

theorem expStep_stable_start (c : Elem) (ts : String)
    (h : (expFixAttr "stop" (expFixAttr "start" c)).get "start" = some ts) :
    sciParse ts.data = none := by
  rw [expStep_get_start] at h
  cases ho : c.get "start" with
  | none => rw [ho] at h; exact absurd h (by simp)
  | some o =>
    rw [ho] at h
    simp only [Option.map_some', Option.some.injEq] at h
    rw [← h]
    exact sciSub_sciSub_none o

theorem expStep_stable_stop (c : Elem) (ts : String)
    (h : (expFixAttr "stop" (expFixAttr "start" c)).get "stop" = some ts) :
    sciParse ts.data = none := by
  rw [expStep_get_stop] at h
  cases ho : c.get "stop" with
  | none => rw [ho] at h; exact absurd h (by simp)
  | some o =>
    rw [ho] at h
    simp only [Option.map_some', Option.some.injEq] at h
    rw [← h]
    exact sciSub_sciSub_none o

theorem expStep_idem (c : Elem) :
    expFixAttr "stop" (expFixAttr "start"
      (expFixAttr "stop" (expFixAttr "start" c))) =
    expFixAttr "stop" (expFixAttr "start" c) := by
  rw [expFixAttr_eq_self _ _ (expStep_stable_start c)]
  exact expFixAttr_eq_self _ _ (expStep_stable_stop c)

theorem normalize_exponents_idem (t : Elem) :
    normalize_exponents (normalize_exponents t) = normalize_exponents t := by
  unfold normalize_exponents
  rw [Elem.children_withChildren, Elem.withChildren_withChildren]
  congr 1
  rw [List.map_map]
  apply List.map_congr_left
  intro c _
  by_cases hp : c.tag = "programme"
  · have htag : (expFixAttr "stop" (expFixAttr "start" c)).tag = "programme" := by
      rw [expFixAttr_tag, expFixAttr_tag]; exact hp
    simp only [Function.comp_apply, if_pos hp, if_pos htag]
    exact expStep_idem c
  · simp only [Function.comp_apply, if_neg hp]

theorem escape_specials_idem (e : Elem) :
    escape_specials (escape_specials e) = escape_specials e := by
  induction e using Elem.induct with
  | _ t a tx cd ch ih =>
    rw [escape_specials_mk, escape_specials_mk]
    have hflag : (if (if cd ∧ tx.isSome then false else cd) ∧ tx.isSome then false
        else (if cd ∧ tx.isSome then false else cd)) =
        (if cd ∧ tx.isSome then false else cd) := by
      cases cd <;> cases tx <;> simp
    have hch : (ch.map escape_specials).map escape_specials =
        ch.map escape_specials := by
      apply map_eq_self_of
      intro x hx
      obtain ⟨c, hc, rfl⟩ := List.mem_map.mp hx
      exact ih c hc
    rw [hflag, hch]

theorem escape_ampersands_idem (e : Elem) :
    escape_ampersands (escape_ampersands e) = escape_ampersands e := by
  induction e using Elem.induct with
  | _ t a tx cd ch ih =>
    rw [escape_ampersands_mk, escape_ampersands_mk]
    have htx : (tx.map ampSub).map ampSub = tx.map ampSub := by
      cases tx with
      | none => rfl
      | some s => simp [ampSub_idem]
    have hch : (ch.map escape_ampersands).map escape_ampersands =
        ch.map escape_ampersands := by
      apply map_eq_self_of
      intro x hx
      obtain ⟨c, hc, rfl⟩ := List.mem_map.mp hx
      exact ih c hc
    rw [htx, hch]

theorem fix_chronology_idem (t : Elem) :
    fix_chronology (fix_chronology t) = fix_chronology t := by
  unfold fix_chronology
  rw [Elem.children_withChildren, Elem.withChildren_withChildren]
  congr 1
  rw [List.filter_filter]
  apply List.filter_congr
  intro c _
  simp

theorem prune_invalid_programmes_idem (seen : List String) (t : Elem) :
    prune_invalid_programmes seen (prune_invalid_programmes seen t) =
      prune_invalid_programmes seen t := by
  unfold prune_invalid_programmes
  rw [Elem.children_withChildren, Elem.withChildren_withChildren]
  congr 1
  apply filterMap_eq_self_of
  intro x hx
  obtain ⟨c, _, hc⟩ := List.mem_filterMap.mp hx
  exact pruneChild_kept hc

/-! Section: clean-text trees are fixed points of the text passes -/

theorem attach_all {α} (l : List α) (p : α → Bool) :
    l.attach.all (fun c => p c.1) = l.all p := by
  rw [Bool.eq_iff_iff, List.all_eq_true, List.all_eq_true]
  constructor
  · intro h x hx
    exact h ⟨x, hx⟩ (List.mem_attach l ⟨x, hx⟩)
  · intro h c _
    exact h c.1 c.2

theorem textsClean_mk (t a tx cd ch) :
    textsClean (Elem.mk t a tx cd ch) =
      (!cd &&
        (match tx with
         | some s => ampSub s == s
         | none => true) &&
        ch.all textsClean) := by
  rw [textsClean.eq_def]
  simp only [attach_all]

theorem textsClean_parts {t a tx cd ch}
    (h : textsClean (Elem.mk t a tx cd ch) = true) :
    cd = false ∧ (∀ s, tx = some s → ampSub s = s) ∧
      ∀ c ∈ ch, textsClean c = true := by
  rw [textsClean_mk, Bool.and_eq_true, Bool.and_eq_true] at h
  obtain ⟨⟨hcd, htx⟩, hch⟩ := h
  refine ⟨by simpa using hcd, ?_, ?_⟩
  · intro s hs
    subst hs
    simpa using htx
  · intro c hc
    exact List.all_eq_true.mp hch c hc

theorem escape_specials_of_clean {e : Elem} (h : textsClean e = true) :
    escape_specials e = e := by
  induction e using Elem.induct with
  | _ t a tx cd ch ih =>
    obtain ⟨hcd, _, hch⟩ := textsClean_parts h
    subst hcd
    rw [escape_specials_mk, ite_self,
      map_eq_self_of (fun c hc => ih c hc (hch c hc))]

theorem escape_ampersands_of_clean {e : Elem} (h : textsClean e = true) :
    escape_ampersands e = e := by
  induction e using Elem.induct with
  | _ t a tx cd ch ih =>
    obtain ⟨_, htx, hch⟩ := textsClean_parts h
    rw [escape_ampersands_mk]
    have htx2 : tx.map ampSub = tx := by
      cases tx with
      | none => rfl
      | some s => simp [htx s rfl]
    rw [htx2, map_eq_self_of (fun c hc => ih c hc (hch c hc))]

theorem clearCData_of_clean {e : Elem} (h : textsClean e = true) :
    clearCData e = e := by
  induction e using Elem.induct with
  | _ t a tx cd ch ih =>
    obtain ⟨hcd, _, hch⟩ := textsClean_parts h
    subst hcd
    rw [clearCData_mk]
    rw [map_eq_self_of (fun c hc => ih c hc (hch c hc))]

/-- After the ampersand sweep and the round-trip, the tree is clean. -/
theorem textsClean_after (e : Elem) :
    textsClean (clearCData (escape_ampersands e)) = true := by
  induction e using Elem.induct with
  | _ t a tx cd ch ih =>
    rw [escape_ampersands_mk, clearCData_mk, textsClean_mk]
    simp only [Bool.not_false, Bool.true_and]
    rw [Bool.and_eq_true]
    constructor
    · cases tx with
      | none => rfl
      | some s =>
        simp only [Option.map_some']
        rw [beq_iff_eq]
        exact ampSub_idem s
    · rw [List.all_eq_true]
      intro x hx
      rw [List.map_map] at hx
      obtain ⟨c, hc, rfl⟩ := List.mem_map.mp hx
      exact ih c hc

/-! Section: further pruneChild lemmas -/

theorem pruneChild_get_preserve {seen : List String} {e d : Elem} (k : String)
    (hk : k ≠ "channel") (h : pruneChild seen e = some d) : d.get k = e.get k := by
  unfold pruneChild at h
  by_cases hp : e.tag = "programme"
  · rw [if_pos hp] at h
    cases hl : dictLookup (norm_map seen) (normalize_id ((e.get "channel").getD "")) with
    | none => rw [hl] at h; exact absurd h (by simp)
    | some canonical =>
      rw [hl] at h
      simp only [Option.some.injEq] at h
      subst h
      split
      · rfl
      · exact Elem.get_set_ne e "channel" k canonical hk
  · rw [if_neg hp] at h
    simp only [Option.some.injEq] at h
    subst h
    rfl

theorem pruneChild_tag {seen : List String} {e d : Elem}
    (h : pruneChild seen e = some d) : d.tag = e.tag := by
  unfold pruneChild at h
  by_cases hp : e.tag = "programme"
  · rw [if_pos hp] at h
    cases hl : dictLookup (norm_map seen) (normalize_id ((e.get "channel").getD "")) with
    | none => rw [hl] at h; exact absurd h (by simp)
    | some canonical =>
      rw [hl] at h
      simp only [Option.some.injEq] at h
      subst h
      split
      · rfl
      · exact Elem.tag_set e "channel" canonical
  · rw [if_neg hp] at h
    simp only [Option.some.injEq] at h
    subst h
    rfl

/-- A programme the pruning keeps as-is carries its canonical channel id:
the id re-looks itself up. -/
theorem pruneChild_self_canonical {seen : List String} {x : Elem}
    (hp : x.tag = "programme") (hx : pruneChild seen x = some x) :
    ∃ canonical, x.get "channel" = some canonical ∧
      dictLookup (norm_map seen) (normalize_id canonical) = some canonical := by
  unfold pruneChild at hx
  rw [if_pos hp] at hx
  cases hl : dictLookup (norm_map seen) (normalize_id ((x.get "channel").getD "")) with
  | none => rw [hl] at hx; exact absurd hx (by simp)
  | some canonical =>
    rw [hl] at hx
    simp only [Option.some.injEq] at hx
    have hcc : x.get "channel" = some canonical := by
      by_cases hc : x.get "channel" = some canonical
      · exact hc
      · rw [if_neg hc] at hx
        have h2 := Elem.get_set_same x "channel" canonical
        rw [hx] at h2
        exact h2
    exact ⟨canonical, hcc, dictLookup_norm_map_self hl⟩

/-- Keeping-as-is under the pruning only depends on the tag and the
channel attribute. -/
theorem pruneChild_congr {seen : List String} {x y : Elem}
    (htag : y.tag = x.tag) (hch : y.get "channel" = x.get "channel")
    (hx : pruneChild seen x = some x) : pruneChild seen y = some y := by
  by_cases hp : x.tag = "programme"
  · obtain ⟨canonical, hcc, hl⟩ := pruneChild_self_canonical hp hx
    unfold pruneChild
    rw [if_pos (htag.trans hp), hch, hcc]
    simp only [Option.getD_some]
    rw [hl]
    simp
  · exact pruneChild_non_prog (fun h2 => hp (htag.symm.trans h2))

/-- The chronology flag only depends on the two timestamp attributes. -/
theorem progBadChronology_congr {x y : Elem}
    (hstart : y.get "start" = x.get "start")
    (hstop : y.get "stop" = x.get "stop") :
    progBadChronology y = progBadChronology x := by
  unfold progBadChronology
  rw [hstart, hstop]

/-! Section: a good tree is a fixed point of the whole pipeline -/

theorem normalize_timezones_of_good {seen : List String} {t : Elem}
    (h : GoodTree seen t) : normalize_timezones t = t := by
  unfold normalize_timezones
  conv_rhs => rw [← Elem.withChildren_self t]
  congr 1
  apply map_eq_self_of
  intro c hc
  by_cases hp : c.tag = "programme"
  · rw [if_pos hp]
    obtain ⟨hstart, hstop, _, _⟩ := (h.1 c hc hp)
    rw [fixAttrWith_eq_self tzSub "start" c (fun ts hts => (hstart ts hts).1)]
    exact fixAttrWith_eq_self tzSub "stop" c (fun ts hts => (hstop ts hts).1)
  · rw [if_neg hp]

theorem normalize_exponents_of_good {seen : List String} {t : Elem}
    (h : GoodTree seen t) : normalize_exponents t = t := by
  unfold normalize_exponents
  conv_rhs => rw [← Elem.withChildren_self t]
  congr 1
  apply map_eq_self_of
  intro c hc
  by_cases hp : c.tag = "programme"
  · rw [if_pos hp]
    obtain ⟨hstart, hstop, _, _⟩ := (h.1 c hc hp)
    rw [expFixAttr_eq_self "start" c (fun ts hts => (hstart ts hts).2)]
    exact expFixAttr_eq_self "stop" c (fun ts hts => (hstop ts hts).2)
  · rw [if_neg hp]

theorem fix_chronology_of_good {seen : List String} {t : Elem}
    (h : GoodTree seen t) : fix_chronology t = t := by
  unfold fix_chronology
  conv_rhs => rw [← Elem.withChildren_self t]
  congr 1
  rw [List.filter_eq_self]
  intro c hc
  simp only [decide_eq_true_eq]
  rintro ⟨hp, hbad⟩
  rw [(h.1 c hc hp).2.2.1] at hbad
  exact Bool.false_ne_true hbad

theorem prune_invalid_programmes_of_good {seen : List String} {t : Elem}
    (h : GoodTree seen t) : prune_invalid_programmes seen t = t := by
  unfold prune_invalid_programmes
  conv_rhs => rw [← Elem.withChildren_self t]
  congr 1
  apply filterMap_eq_self_of
  intro c hc
  by_cases hp : c.tag = "programme"
  · exact (h.1 c hc hp).2.2.2
  · exact pruneChild_non_prog hp

theorem normalizePipeline_of_good {seen : List String} {t : Elem}
    (h : GoodTree seen t) : normalizePipeline seen t = t := by
  unfold normalizePipeline
  rw [normalize_timezones_of_good h, normalize_exponents_of_good h,
    escape_specials_of_clean h.2, fix_chronology_of_good h,
    prune_invalid_programmes_of_good h, escape_ampersands_of_clean h.2,
    final_escape_eq_clearCData, clearCData_of_clean h.2]

/-! Section: the pipeline establishes GoodTree -/

theorem tzSub_sciSub_tzSub (o : String) :
    tzSub (sciSub (tzSub o)) = sciSub (tzSub o) := by
  cases hm : sciParse (tzSub o).data with
  | none =>
    rw [sciSub_eq_none hm]
    exact tzSub_idem o
  | some m => exact tzSub_sciSub_of_some hm

theorem pipeStep_stable_start (c : Elem) (ts : String)
    (h : (expFixAttr "stop" (expFixAttr "start"
      (fixAttrWith tzSub "stop" (fixAttrWith tzSub "start" c)))).get "start" =
      some ts) : tzSub ts = ts ∧ sciParse ts.data = none := by
  refine ⟨?_, expStep_stable_start _ ts h⟩
  rw [expStep_get_start, tzStep_get_start] at h
  cases ho : c.get "start" with
  | none => rw [ho] at h; exact absurd h (by simp)
  | some o =>
    rw [ho] at h
    simp only [Option.map_some', Option.some.injEq] at h
    rw [← h]
    exact tzSub_sciSub_tzSub o

theorem pipeStep_stable_stop (c : Elem) (ts : String)
    (h : (expFixAttr "stop" (expFixAttr "start"
      (fixAttrWith tzSub "stop" (fixAttrWith tzSub "start" c)))).get "stop" =
      some ts) : tzSub ts = ts ∧ sciParse ts.data = none := by
  refine ⟨?_, expStep_stable_stop _ ts h⟩
  rw [expStep_get_stop, tzStep_get_stop] at h
  cases ho : c.get "stop" with
  | none => rw [ho] at h; exact absurd h (by simp)
  | some o =>
    rw [ho] at h
    simp only [Option.map_some', Option.some.injEq] at h
    rw [← h]
    exact tzSub_sciSub_tzSub o

theorem goodTree_pipeline (seen : List String) (t : Elem) :
    GoodTree seen (normalizePipeline seen t) := by
  unfold normalizePipeline
  rw [final_escape_eq_clearCData]
  refine ⟨?_, textsClean_after _⟩
  intro c hc hctag
  rw [clearCData_children, escape_ampersands_children] at hc
  obtain ⟨d1, hd1, rfl⟩ := List.mem_map.mp hc
  obtain ⟨d, hd, rfl⟩ := List.mem_map.mp hd1
  unfold prune_invalid_programmes at hd
  rw [Elem.children_withChildren] at hd
  obtain ⟨e, he, hprune⟩ := List.mem_filterMap.mp hd
  unfold fix_chronology at he
  rw [Elem.children_withChildren, List.mem_filter] at he
  obtain ⟨he2, hefilter⟩ := he
  rw [escape_specials_children] at he2
  obtain ⟨f, hf, rfl⟩ := List.mem_map.mp he2
  unfold normalize_exponents at hf
  rw [Elem.children_withChildren] at hf
  obtain ⟨g, hg, hfeq⟩ := List.mem_map.mp hf
  unfold normalize_timezones at hg
  rw [Elem.children_withChildren] at hg
  obtain ⟨g0, hg0, hgeq⟩ := List.mem_map.mp hg
  by_cases hcase : g0.tag = "programme"
  · rw [if_pos hcase] at hgeq
    subst hgeq
    have hgtag : (fixAttrWith tzSub "stop" (fixAttrWith tzSub "start" g0)).tag =
        "programme" := by
      rw [fixAttrWith_tag, fixAttrWith_tag]
      exact hcase
    rw [if_pos hgtag] at hfeq
    subst hfeq
    have hget : ∀ k, k ≠ "channel" →
        (clearCData (escape_ampersands d)).get k =
        (escape_specials (expFixAttr "stop" (expFixAttr "start"
          (fixAttrWith tzSub "stop" (fixAttrWith tzSub "start" g0))))).get k := by
      intro k hk
      rw [clearCData_get, escape_ampersands_get, pruneChild_get_preserve k hk hprune]
    have hetag : (escape_specials (expFixAttr "stop" (expFixAttr "start"
        (fixAttrWith tzSub "stop" (fixAttrWith tzSub "start" g0))))).tag =
        "programme" := by
      rw [escape_specials_tag, expFixAttr_tag, expFixAttr_tag]
      exact hgtag
    simp only [decide_eq_true_eq] at hefilter
    have hbadE : progBadChronology (escape_specials (expFixAttr "stop"
        (expFixAttr "start" (fixAttrWith tzSub "stop"
          (fixAttrWith tzSub "start" g0))))) = false := by
      cases hpb : progBadChronology (escape_specials (expFixAttr "stop"
          (expFixAttr "start" (fixAttrWith tzSub "stop"
            (fixAttrWith tzSub "start" g0))))) with
      | false => rfl
      | true => exact absurd ⟨hetag, hpb⟩ hefilter
    refine ⟨?_, ?_, ?_, ?_⟩
    · intro ts hts
      rw [hget "start" (by decide), escape_specials_get] at hts
      exact pipeStep_stable_start g0 ts hts
    · intro ts hts
      rw [hget "stop" (by decide), escape_specials_get] at hts
      exact pipeStep_stable_stop g0 ts hts
    · rw [progBadChronology_congr (hget "start" (by decide))
        (hget "stop" (by decide))]
      exact hbadE
    · exact pruneChild_congr
        (by rw [clearCData_tag, escape_ampersands_tag])
        (by rw [clearCData_get, escape_ampersands_get])
        (pruneChild_kept hprune)
  · rw [if_neg hcase] at hgeq
    subst hgeq
    rw [if_neg hcase] at hfeq
    subst hfeq
    have hchain : (clearCData (escape_ampersands d)).tag = g0.tag := by
      rw [clearCData_tag, escape_ampersands_tag, pruneChild_tag hprune,
        escape_specials_tag]
    rw [hchain] at hctag
    exact absurd hctag hcase

/-- Running the normalization pipeline twice is running it once. -/
theorem normalizePipeline_idem (seen : List String) (t : Elem) :
    normalizePipeline seen (normalizePipeline seen t) = normalizePipeline seen t :=
  normalizePipeline_of_good (goodTree_pipeline seen t)

/-! Section: the element-ingestion fold -/

theorem foldl_inv {α β : Type} (P : α → Prop) (f : α → β → α)
    (hf : ∀ a b, P a → P (f a b)) :
    ∀ (l : List β) (a : α), P a → P (l.foldl f a) := by
  intro l
  induction l with
  | nil => intro a ha; exact ha
  | cons b l ih => intro a ha; exact ih (f a b) (hf a b ha)

/-- Case analysis of one ingestion step on the channel dictionaries:
either they are untouched, or a fresh channel is appended to both. -/
theorem ingestElem_cases (st : MergeState) (e : Elem) :
    ((ingestElem st e).output_channels = st.output_channels ∧
      (ingestElem st e).seen_channel_ids = st.seen_channel_ids) ∨
    ∃ cid, e.tag = "channel" ∧ e.get "id" = some cid ∧ cid ≠ "" ∧
      st.output_channels.any (fun p => p.1 = normalize_id cid) = false ∧
      (ingestElem st e).output_channels =
        st.output_channels ++ [(normalize_id cid, e)] ∧
      (ingestElem st e).seen_channel_ids = st.seen_channel_ids ++ [cid] := by
  unfold ingestElem
  split
  · rename_i h1
    split
    · rename_i cid hid
      split
      · rename_i h2
        split
        · exact Or.inl ⟨rfl, rfl⟩
        · rename_i h3
          exact Or.inr ⟨cid, h1, hid, h2,
            by simp only [Bool.not_eq_true] at h3; exact h3, rfl, rfl⟩
      · exact Or.inl ⟨rfl, rfl⟩
    · exact Or.inl ⟨rfl, rfl⟩
  · split
    · split
      · split
        · exact Or.inl ⟨rfl, rfl⟩
        · exact Or.inl ⟨rfl, rfl⟩
      · exact Or.inl ⟨rfl, rfl⟩
    · exact Or.inl ⟨rfl, rfl⟩

/-- Ingesting a `programme` with a truthy channel reference only appends
it to that channel's programme list — nothing else changes, and nothing
is ever compared or dropped. -/
theorem ingestElem_programme {st : MergeState} {e : Elem} {ch : String}
    (htag : e.tag = "programme") (hch : e.get "channel" = some ch)
    (hne : ch ≠ "") :
    ingestElem st e =
      { st with output_programs := progAppend st.output_programs ch e } := by
  unfold ingestElem
  rw [if_neg (fun hc => by rw [htag] at hc; exact absurd hc (by decide)),
    if_pos htag, hch]
  exact if_pos hne

/-- A later channel whose id normalizes into the stored keys changes
nothing: the duplicate is dropped, the first-seen entry survives. -/
theorem ingestElem_dup_drop {st : MergeState} {e : Elem} {cid : String}
    (htag : e.tag = "channel") (hid : e.get "id" = some cid)
    (hdup : st.output_channels.any (fun p => p.1 = normalize_id cid) = true) :
    ingestElem st e = st := by
  unfold ingestElem
  rw [if_pos htag, hid]
  show (if cid ≠ "" then
      (if st.output_channels.any (fun p => p.1 = normalize_id cid) then st
       else ⟨st.output_channels ++ [(normalize_id cid, e)],
             st.seen_channel_ids ++ [cid], st.output_programs⟩)
    else st) = st
  by_cases hne : cid ≠ ""
  · rw [if_pos hne, if_pos hdup]
  · rw [if_neg hne]

/-- Stored channel entries persist through every later ingestion step. -/
theorem ingestElem_preserve_channel {st : MergeState} {e : Elem}
    {q : String × Elem} (h : q ∈ st.output_channels) :
    q ∈ (ingestElem st e).output_channels := by
  rcases ingestElem_cases st e with ⟨hc, _⟩ | ⟨cid, _, _, _, _, hc, _⟩
  · rw [hc]; exact h
  · rw [hc]; exact List.mem_append_left _ h

theorem chanInv_empty : chanInv emptyState := by
  refine ⟨rfl, List.nodup_nil, ?_⟩
  intro p hp
  exact absurd hp (List.not_mem_nil p)

theorem chanInv_ingestElem (st : MergeState) (e : Elem) (h : chanInv st) :
    chanInv (ingestElem st e) := by
  obtain ⟨hcorr, hnd, hkey⟩ := h
  rcases ingestElem_cases st e with ⟨hc, hs⟩ | ⟨cid, _, hid, _, hany, hc, hs⟩
  · exact ⟨by rw [hc, hs, hcorr], by rw [hc]; exact hnd, by rw [hc]; exact hkey⟩
  · have hnotin : normalize_id cid ∉ st.output_channels.map Prod.fst := by
      intro hmem
      obtain ⟨p, hp, hpeq⟩ := List.mem_map.mp hmem
      have := List.any_eq_false.mp hany p hp
      simp only [decide_eq_true_eq] at this
      exact this hpeq
    refine ⟨?_, ?_, ?_⟩
    · rw [hc, hs, List.map_append, List.map_append, hcorr]
      rfl
    · rw [hc, List.map_append]
      rw [List.nodup_append]
      refine ⟨hnd, List.nodup_singleton _, ?_⟩
      intro a ha hb
      simp only [List.map_cons, List.map_nil, List.mem_singleton] at hb
      subst hb
      exact hnotin ha
    · rw [hc]
      intro p hp
      rcases List.mem_append.mp hp with hp | hp
      · exact hkey p hp
      · simp only [List.mem_singleton] at hp
        subst hp
        exact ⟨cid, hid, rfl⟩

theorem chanInv_ingestRoot (st : MergeState) (root : Elem) (h : chanInv st) :
    chanInv (ingestRoot st root) :=
  foldl_inv chanInv ingestElem (fun a b ha => chanInv_ingestElem a b ha)
    root.children st h

theorem chanInv_ingestAll (roots : List Elem) : chanInv (ingestAll roots) :=
  foldl_inv chanInv ingestRoot (fun a b ha => chanInv_ingestRoot a b ha)
    roots emptyState chanInv_empty

/-! Section: the programme dictionary is append-only -/

theorem progsFor_map_append (m : List (String × List Elem)) (k : String) (e : Elem) :
    m.any (fun p => p.1 = k) = true →
    progsFor (m.map (fun p => if p.1 = k then (p.1, p.2 ++ [e]) else p)) k =
      progsFor m k ++ [e] := by
  induction m with
  | nil => intro h; simp at h
  | cons q m ih =>
    intro h
    by_cases hq : q.1 = k
    · simp only [List.map_cons, if_pos hq]
      unfold progsFor
      rw [List.find?_cons_of_pos _ (by simp [hq]),
        List.find?_cons_of_pos _ (by simp [hq])]
      rfl
    · simp only [List.map_cons, if_neg hq]
      unfold progsFor
      rw [List.find?_cons_of_neg _ (by simp [hq]),
        List.find?_cons_of_neg _ (by simp [hq])]
      refine ih ?_
      simp only [List.any_cons, Bool.or_eq_true] at h
      rcases h with h | h
      · exact absurd (by simpa using h) hq
      · exact h

theorem progsFor_append_new (m : List (String × List Elem)) (k : String) (e : Elem) :
    (∀ x ∈ m, ¬(x.1 = k)) →
    progsFor (m ++ [(k, [e])]) k = progsFor m k ++ [e] := by
  induction m with
  | nil =>
    intro _
    unfold progsFor
    rw [List.nil_append, List.find?_cons_of_pos _ (by simp)]
    rfl
  | cons q m ih =>
    intro hall
    rw [List.cons_append]
    unfold progsFor
    rw [List.find?_cons_of_neg _ (by simp [hall q (List.mem_cons_self q m)]),
      List.find?_cons_of_neg _ (by simp [hall q (List.mem_cons_self q m)])]
    exact ih (fun x hx => hall x (List.mem_cons_of_mem q hx))

/-- `setdefault(ch, []).append(elem)`: the incoming element lands at the
end of its channel's list, unconditionally. -/
theorem progsFor_progAppend (m : List (String × List Elem)) (k : String) (e : Elem) :
    progsFor (progAppend m k e) k = progsFor m k ++ [e] := by
  unfold progAppend
  by_cases h : m.any (fun p => p.1 = k) = true
  · rw [if_pos h]
    exact progsFor_map_append m k e h
  · rw [if_neg h]
    refine progsFor_append_new m k e ?_
    intro x hx hxk
    exact h (List.any_eq_true.mpr ⟨x, hx, by simpa using hxk⟩)

/-! Section: the normalized channel map under the merge invariant -/

theorem dictLookup_eq_none_iff {seen : List String} {k : String} :
    dictLookup (norm_map seen) k = none ↔ k ∉ seen.map normalize_id := by
  unfold dictLookup
  rw [Option.map_eq_none', List.find?_eq_none]
  constructor
  · intro h hmem
    obtain ⟨s, hs, hseq⟩ := List.mem_map.mp hmem
    have hin : ((normalize_id s, s) : String × String) ∈ (norm_map seen).reverse := by
      rw [List.mem_reverse]
      exact List.mem_map.mpr ⟨s, hs, rfl⟩
    have := h _ hin
    simp only [decide_eq_true_eq] at this
    exact this hseq
  · intro hmem x hx
    rw [List.mem_reverse] at hx
    obtain ⟨s, hs, hxeq⟩ := List.mem_map.mp hx
    simp only [decide_eq_true_eq]
    intro hk
    apply hmem
    rw [← hk, ← hxeq]
    exact List.mem_map.mpr ⟨s, hs, rfl⟩

/-- With collision-free normalized keys, every seen literal id looks
itself up. -/
theorem dictLookup_nodup {seen : List String}
    (hnd : (seen.map normalize_id).Nodup) {s : String} (hs : s ∈ seen) :
    dictLookup (norm_map seen) (normalize_id s) = some s := by
  cases hv : dictLookup (norm_map seen) (normalize_id s) with
  | none =>
    exact absurd (List.mem_map.mpr ⟨s, hs, rfl⟩) (dictLookup_eq_none_iff.mp hv)
  | some v =>
    obtain ⟨hvmem, hveq⟩ := dictLookup_norm_map hv
    rw [List.inj_on_of_nodup_map hnd hvmem hs hveq]

/-- A kept programme's rewritten channel reference is a literal member
of the seen channel ids. -/
theorem pruneChild_some_channel {seen : List String} {e d : Elem}
    (hp : e.tag = "programme") (h : pruneChild seen e = some d) :
    ∃ id, d.get "channel" = some id ∧ id ∈ seen := by
  unfold pruneChild at h
  rw [if_pos hp] at h
  cases hl : dictLookup (norm_map seen) (normalize_id ((e.get "channel").getD "")) with
  | none => rw [hl] at h; exact absurd h (by simp)
  | some canonical =>
    rw [hl] at h
    simp only [Option.some.injEq] at h
    subst h
    refine ⟨canonical, ?_, (dictLookup_norm_map hl).1⟩
    split
    · rename_i hcc; exact hcc
    · exact Elem.get_set_same e "channel" canonical

/-- A programme is pruned exactly when its normalized channel reference
matches no seen channel identity. -/
theorem pruneChild_none_iff {seen : List String} {c : Elem}
    (hp : c.tag = "programme") :
    pruneChild seen c = none ↔
      normalize_id ((c.get "channel").getD "") ∉ seen.map normalize_id := by
  unfold pruneChild
  rw [if_pos hp]
  cases hl : dictLookup (norm_map seen) (normalize_id ((c.get "channel").getD "")) with
  | none =>
    constructor
    · intro _
      exact dictLookup_eq_none_iff.mp hl
    · intro _
      rfl
  | some canonical =>
    constructor
    · intro h
      exact absurd h (by simp)
    · intro hmem
      exfalso
      obtain ⟨hcm, hceq⟩ := dictLookup_norm_map hl
      exact hmem (by rw [← hceq]; exact List.mem_map.mpr ⟨canonical, hcm, rfl⟩)

/-- A programme whose reference normalizes like a seen id `s` is kept,
rewritten to the literal `s` (collision-free keys). -/
theorem pruneChild_of_mem {seen : List String} {c : Elem}
    (hp : c.tag = "programme") (hnd : (seen.map normalize_id).Nodup)
    {s : String} (hs : s ∈ seen)
    (hkey : normalize_id ((c.get "channel").getD "") = normalize_id s) :
    pruneChild seen c =
      some (if c.get "channel" = some s then c else c.set "channel" s) := by
  unfold pruneChild
  rw [if_pos hp, hkey, dictLookup_nodup hnd hs]

/-! Section: the chronology flag in terms of the timestamp parser -/

theorem progBadChronology_iff (c : Elem) :
    progBadChronology c = true ↔
      ∃ s e, parseAttrTS (c.get "start") = some s ∧
        parseAttrTS (c.get "stop") = some e ∧ e ≤ s := by
  unfold progBadChronology
  cases h1 : parseAttrTS (c.get "start") with
  | none => simp
  | some sv =>
    cases h2 : parseAttrTS (c.get "stop") with
    | none => simp
    | some ev => simp

theorem fix_chronology_mem_iff (t c : Elem) :
    c ∈ (fix_chronology t).children ↔
      c ∈ t.children ∧
        (c.tag = "programme" → progBadChronology c = false) := by
  unfold fix_chronology
  rw [Elem.children_withChildren, List.mem_filter]
  constructor
  · rintro ⟨hm, hp⟩
    refine ⟨hm, fun htag => ?_⟩
    simp only [decide_eq_true_eq] at hp
    cases hb : progBadChronology c with
    | false => rfl
    | true => exact absurd ⟨htag, hb⟩ hp
  · rintro ⟨hm, hp⟩
    refine ⟨hm, ?_⟩
    simp only [decide_eq_true_eq]
    rintro ⟨htag, hbad⟩
    rw [hp htag] at hbad
    exact Bool.false_ne_true hbad

/-! Section: source resolution never raises on URL sources -/

theorem open_xml_url_ok (env : Env) {s : String} (h : isUrl s = true) :
    ∃ r, open_xml env s = Except.ok r := by
  unfold open_xml
  rw [if_pos h]
  cases hx : (if env.fresh s then some (env.cacheContent s)
      else if env.fetchOk s then some (env.fetchContent s) else none) with
  | none => exact ⟨none, rfl⟩
  | some content => exact ⟨env.parse content, rfl⟩

theorem get_channels_programs_url_ok (env : Env) (st : MergeState) (s : String)
    (h : isUrl s = true) :
    ∃ st', get_channels_programs env st s = Except.ok st' := by
  obtain ⟨r, hr⟩ := open_xml_url_ok env h
  unfold get_channels_programs
  rw [hr]
  cases r with
  | none => exact ⟨st, rfl⟩
  | some root => exact ⟨ingestRoot st root, rfl⟩

/-- A URL source whose cache is stale and whose fetch fails contributes
nothing: the state passes through unchanged. -/
theorem get_channels_programs_fetch_fail (env : Env) (st : MergeState)
    (s : String) (hurl : isUrl s = true) (hfresh : env.fresh s = false)
    (hfetch : env.fetchOk s = false) :
    get_channels_programs env st s = Except.ok st := by
  unfold get_channels_programs open_xml
  rw [if_pos hurl, if_neg (by rw [hfresh]; exact Bool.false_ne_true),
    if_neg (by rw [hfetch]; exact Bool.false_ne_true)]

/-- A URL source whose document fails to parse contributes nothing. -/
theorem get_channels_programs_parse_fail (env : Env) (st : MergeState)
    (s : String) (hurl : isUrl s = true) (hfresh : env.fresh s = true)
    (hparse : env.parse (env.cacheContent s) = none) :
    get_channels_programs env st s = Except.ok st := by
  unfold get_channels_programs open_xml
  rw [if_pos hurl, if_pos hfresh]
  show ((match (Except.ok (env.parse (env.cacheContent s)) :
      Except String (Option Elem)) with
    | Except.error e => Except.error e
    | Except.ok none => Except.ok st
    | Except.ok (some root) => Except.ok (ingestRoot st root)) :
      Except String MergeState) = Except.ok st
  rw [hparse]

theorem runMerge_all_urls (env : Env) (sources : List String)
    (h : ∀ s ∈ sources, isUrl s = true) :
    ∃ st, runMerge env sources = Except.ok st := by
  unfold runMerge
  suffices h2 : ∀ (l : List String), (∀ s ∈ l, isUrl s = true) →
      ∀ st0, ∃ st, l.foldlM (get_channels_programs env) st0 = Except.ok st from
    h2 sources h emptyState
  intro l
  induction l with
  | nil => intro _ st0; exact ⟨st0, rfl⟩
  | cons s rest ih =>
    intro hl st0
    obtain ⟨st1, h1⟩ := get_channels_programs_url_ok env st0 s
      (hl s (List.mem_cons_self s rest))
    obtain ⟨st2, h2⟩ := ih (fun x hx => hl x (List.mem_cons_of_mem s hx)) st1
    refine ⟨st2, ?_⟩
    rw [List.foldlM_cons, h1]
    exact h2

/-! Section: minimum-width rendering -/

theorem pad14_length (v : Nat) : (pad14 v).length = max 14 (natToDigits v).length := by
  unfold pad14
  rw [List.length_append, List.length_replicate]
  omega

/-! Section: `normalize_id` ignores surrounding whitespace -/

theorem pySpace_ne_amp {c : Char} (h : isPySpace c = true) : c ≠ '&' := by
  intro hc
  subst hc
  exact absurd h (by decide)

theorem pySpace_notin_lt {c : Char} (h : isPySpace c = true) : c ∉ "&lt;".data := by
  intro hc
  rw [show ("&lt;".data) = ['&', 'l', 't', ';'] from rfl] at hc
  simp only [List.mem_cons, List.not_mem_nil, or_false] at hc
  rcases hc with rfl | rfl | rfl | rfl <;> exact absurd h (by decide)

theorem pySpace_notin_gt {c : Char} (h : isPySpace c = true) : c ∉ "&gt;".data := by
  intro hc
  rw [show ("&gt;".data) = ['&', 'g', 't', ';'] from rfl] at hc
  simp only [List.mem_cons, List.not_mem_nil, or_false] at hc
  rcases hc with rfl | rfl | rfl | rfl <;> exact absurd h (by decide)

theorem pySpace_notin_amp {c : Char} (h : isPySpace c = true) : c ∉ "&amp;".data := by
  intro hc
  rw [show ("&amp;".data) = ['&', 'a', 'm', 'p', ';'] from rfl] at hc
  simp only [List.mem_cons, List.not_mem_nil, or_false] at hc
  rcases hc with rfl | rfl | rfl | rfl | rfl <;> exact absurd h (by decide)

theorem isPrefixOf_cons_ne {p c : Char} {pt rest : List Char} (h : c ≠ p) :
    (p :: pt).isPrefixOf (c :: rest) = false := by
  show (p == c && pt.isPrefixOf rest) = false
  rw [beq_eq_false_iff_ne.mpr (Ne.symm h), Bool.false_and]

/-- An entity pattern (which starts with `&`) scans inertly over an
ampersand-free prefix. -/
theorem replaceChars_append_left (pt repl : List Char) (pre l : List Char)
    (hpre : ∀ c ∈ pre, c ≠ '&') :
    replaceChars ('&' :: pt) repl (pre ++ l) =
      pre ++ replaceChars ('&' :: pt) repl l := by
  induction pre with
  | nil => rfl
  | cons c pre ih =>
    rw [List.cons_append]
    simp only [replaceChars]
    rw [dif_neg (fun hcond => by
      rw [isPrefixOf_cons_ne (hpre c (List.mem_cons_self c pre))] at hcond
      exact Bool.false_ne_true hcond.1)]
    rw [List.cons_append]
    exact congrArg (c :: ·) (ih (fun x hx => hpre x (List.mem_cons_of_mem c hx)))

theorem replaceChars_nil (pat repl : List Char) : replaceChars pat repl [] = [] := by
  simp only [replaceChars]

/-- A text made of characters foreign to the pattern passes through the
substitution untouched. -/
theorem replaceChars_of_disjoint (pat repl : List Char) (hpat : pat ≠ []) :
    ∀ (post : List Char), (∀ c ∈ post, c ∉ pat) →
      replaceChars pat repl post = post := by
  intro post
  induction post with
  | nil => intro _; exact replaceChars_nil pat repl
  | cons c post ih =>
    intro hd
    have hnc : ¬(pat.isPrefixOf (c :: post) = true ∧ pat ≠ []) := by
      rintro ⟨hpref, -⟩
      cases hpe : pat with
      | nil => exact hpat hpe
      | cons p pt =>
        rw [hpe] at hpref
        have hcp : c ≠ p := by
          intro hc
          apply hd c (List.mem_cons_self c post)
          rw [hpe, hc]
          exact List.mem_cons_self p pt
        rw [isPrefixOf_cons_ne hcp] at hpref
        exact Bool.false_ne_true hpref
    simp only [replaceChars]
    rw [dif_neg hnc]
    exact congrArg (c :: ·) (ih (fun x hx => hd x (List.mem_cons_of_mem c hx)))

/-- A pattern never matches into a suffix made of characters foreign to
it, so such a suffix passes through the substitution untouched. -/
theorem replaceChars_append_right (pat repl post : List Char) (hpat : pat ≠ [])
    (hd : ∀ c ∈ post, c ∉ pat) :
    ∀ n (l : List Char), l.length ≤ n →
      replaceChars pat repl (l ++ post) = replaceChars pat repl l ++ post := by
  have hnil : replaceChars pat repl ([] ++ post) = replaceChars pat repl [] ++ post := by
    rw [List.nil_append, replaceChars_nil, List.nil_append]
    exact replaceChars_of_disjoint pat repl hpat post hd
  intro n
  induction n with
  | zero =>
    intro l hl
    rw [List.eq_nil_of_length_eq_zero (Nat.le_zero.mp hl)]
    exact hnil
  | succ n ih =>
    intro l hl
    cases l with
    | nil => exact hnil
    | cons c rest =>
      have hplen : 0 < pat.length := List.length_pos.mpr hpat
      rw [List.cons_append]
      by_cases hm : pat.isPrefixOf (c :: rest) = true
      · have hm' : pat.isPrefixOf (c :: (rest ++ post)) = true := by
          rw [List.isPrefixOf_iff_prefix] at hm ⊢
          rw [← List.cons_append]
          exact hm.trans (List.prefix_append _ _)
        simp only [replaceChars]
        rw [dif_pos ⟨hm', hpat⟩, dif_pos ⟨hm, hpat⟩]
        have hlen : pat.length ≤ (c :: rest).length :=
          (List.isPrefixOf_iff_prefix.mp hm).length_le
        have hdrop : (c :: (rest ++ post)).drop pat.length =
            (c :: rest).drop pat.length ++ post := by
          rw [← List.cons_append, List.drop_append_eq_append_drop,
            Nat.sub_eq_zero_of_le hlen, List.drop_zero]
        rw [hdrop, ih ((c :: rest).drop pat.length) (by
          rw [List.length_drop]
          simp only [List.length_cons] at hl ⊢
          omega), List.append_assoc]
      · have hm2 : pat.isPrefixOf (c :: (rest ++ post)) = false := by
          cases hv : pat.isPrefixOf (c :: (rest ++ post)) with
          | false => rfl
          | true =>
            exfalso
            rw [List.isPrefixOf_iff_prefix, ← List.cons_append] at hv
            by_cases hlen : pat.length ≤ (c :: rest).length
            · exact hm (List.isPrefixOf_iff_prefix.mpr
                (List.prefix_of_prefix_length_le hv (List.prefix_append _ _) hlen))
            · push_neg at hlen
              have hcp : (c :: rest) <+: pat :=
                List.prefix_of_prefix_length_le (List.prefix_append _ _) hv
                  (le_of_lt hlen)
              obtain ⟨u, hu⟩ := hcp
              obtain ⟨t, ht⟩ := hv
              cases u with
              | nil =>
                rw [List.append_nil] at hu
                rw [← hu] at hlen
                exact lt_irrefl _ hlen
              | cons x u2 =>
                have hxpat : x ∈ pat := by
                  rw [← hu]
                  simp
                rw [← hu, List.append_assoc] at ht
                have hpost := List.append_cancel_left ht
                have hxpost : x ∈ post := by
                  rw [← hpost]
                  simp
                exact hd x hxpost hxpat
        simp only [replaceChars]
        rw [dif_neg (fun hcond => Bool.false_ne_true (hm2 ▸ hcond.1)),
          dif_neg (fun hcond => hm hcond.1)]
        rw [List.cons_append]
        exact congrArg (c :: ·) (ih rest (by
          simp only [List.length_cons] at hl
          omega))

theorem dropWhile_append_of_all {p : Char → Bool} (ws l : List Char)
    (h : ∀ c ∈ ws, p c = true) :
    (ws ++ l).dropWhile p = l.dropWhile p := by
  induction ws with
  | nil => rfl
  | cons c ws ih =>
    rw [List.cons_append, List.dropWhile_cons, if_pos (h c (List.mem_cons_self c ws))]
    exact ih (fun x hx => h x (List.mem_cons_of_mem c hx))

theorem dropWhile_append_split {p : Char → Bool} (X l : List Char) :
    (X ++ l).dropWhile p =
      if X.dropWhile p = [] then l.dropWhile p else X.dropWhile p ++ l := by
  induction X with
  | nil => simp
  | cons c X ih =>
    rw [List.cons_append]
    cases hc : p c with
    | true =>
      rw [List.dropWhile_cons, if_pos hc,
        show (c :: X).dropWhile p = X.dropWhile p from by
          rw [List.dropWhile_cons, if_pos hc]]
      exact ih
    | false =>
      rw [List.dropWhile_cons, if_neg (by rw [hc]; exact Bool.false_ne_true),
        show (c :: X).dropWhile p = c :: X from by
          rw [List.dropWhile_cons, if_neg (by rw [hc]; exact Bool.false_ne_true)]]
      rw [if_neg (by simp), List.cons_append]

theorem stripChars_pad (ws1 X ws2 : List Char)
    (h1 : ∀ c ∈ ws1, isPySpace c = true) (h2 : ∀ c ∈ ws2, isPySpace c = true) :
    stripChars (ws1 ++ (X ++ ws2)) = stripChars X := by
  unfold stripChars
  rw [dropWhile_append_of_all ws1 _ h1, dropWhile_append_split]
  by_cases hX : X.dropWhile isPySpace = []
  · rw [if_pos hX, hX,
      show ws2.dropWhile isPySpace = [] from List.dropWhile_eq_nil_iff.mpr h2]
  · rw [if_neg hX, List.reverse_append,
      dropWhile_append_of_all ws2.reverse _
        (fun c hc => h2 c (List.mem_reverse.mp hc))]

/-- Surrounding whitespace never affects the normalized identity. -/
theorem normalize_id_pad (s : String) (ws1 ws2 : List Char)
    (h1 : ∀ c ∈ ws1, isPySpace c = true) (h2 : ∀ c ∈ ws2, isPySpace c = true) :
    normalize_id ⟨ws1 ++ s.data ++ ws2⟩ = normalize_id s := by
  have hn1 : ∀ c ∈ ws1, c ≠ '&' := fun c hc => pySpace_ne_amp (h1 c hc)
  have hlist : replaceChars "&amp;".data "&".data
      (replaceChars "&gt;".data ">".data
        (replaceChars "&lt;".data "<".data (ws1 ++ s.data ++ ws2))) =
      ws1 ++ (replaceChars "&amp;".data "&".data
        (replaceChars "&gt;".data ">".data
          (replaceChars "&lt;".data "<".data s.data)) ++ ws2) := by
    rw [List.append_assoc,
      show ("&lt;".data) = '&' :: "lt;".data from rfl,
      replaceChars_append_left _ _ ws1 _ hn1,
      replaceChars_append_right ('&' :: "lt;".data) "<".data ws2 (by decide)
        (fun c hc => pySpace_notin_lt (h2 c hc)) s.data.length s.data le_rfl,
      show ("&gt;".data) = '&' :: "gt;".data from rfl,
      replaceChars_append_left _ _ ws1 _ hn1,
      replaceChars_append_right ('&' :: "gt;".data) ">".data ws2 (by decide)
        (fun c hc => pySpace_notin_gt (h2 c hc)) _ _ le_rfl,
      show ("&amp;".data) = '&' :: "amp;".data from rfl,
      replaceChars_append_left _ _ ws1 _ hn1,
      replaceChars_append_right ('&' :: "amp;".data) "&".data ws2 (by decide)
        (fun c hc => pySpace_notin_amp (h2 c hc)) _ _ le_rfl]
  unfold normalize_id saxUnescape pyStrip
  show (⟨stripChars (replaceChars "&amp;".data "&".data
      (replaceChars "&gt;".data ">".data
        (replaceChars "&lt;".data "<".data (ws1 ++ s.data ++ ws2))))⟩ : String) =
     ⟨stripChars (replaceChars "&amp;".data "&".data
      (replaceChars "&gt;".data ">".data
        (replaceChars "&lt;".data "<".data s.data)))⟩
  rw [hlist, stripChars_pad ws1 _ ws2 h1 h2]

/-! Section: remaining projection helpers -/

theorem escape_specials_text (e : Elem) : (escape_specials e).text = e.text := by
  cases e
  rw [escape_specials_mk]
  rfl

theorem escape_specials_isCData_unwrap (e : Elem) (hcd : e.isCData = true)
    (htx : e.text.isSome = true) : (escape_specials e).isCData = false := by
  cases e with
  | mk t a tx cd ch =>
    rw [escape_specials_mk]
    show (if cd ∧ tx.isSome then false else cd) = false
    exact if_pos ⟨hcd, htx⟩

theorem escape_specials_isCData_keep (e : Elem) (hcd : e.isCData = false) :
    (escape_specials e).isCData = false := by
  cases e with
  | mk t a tx cd ch =>
    rw [escape_specials_mk]
    show (if cd ∧ tx.isSome then false else cd) = false
    by_cases h : cd ∧ tx.isSome
    · exact if_pos h
    · rw [if_neg h]
      exact hcd

theorem normalize_timezones_child (root c : Elem) (hc : c ∈ root.children)
    (hp : c.tag = "programme") :
    ∃ c', c' ∈ (normalize_timezones root).children ∧
      c'.get "start" = (c.get "start").map tzSub ∧
      c'.get "stop" = (c.get "stop").map tzSub := by
  refine ⟨fixAttrWith tzSub "stop" (fixAttrWith tzSub "start" c), ?_,
    tzStep_get_start c, tzStep_get_stop c⟩
  unfold normalize_timezones
  rw [Elem.children_withChildren]
  refine List.mem_map.mpr ⟨c, hc, ?_⟩
  rw [if_pos hp]

theorem normalize_exponents_child (root c : Elem) (hc : c ∈ root.children)
    (hp : c.tag = "programme") :
    ∃ c', c' ∈ (normalize_exponents root).children ∧
      c'.get "start" = (c.get "start").map sciSub ∧
      c'.get "stop" = (c.get "stop").map sciSub := by
  refine ⟨expFixAttr "stop" (expFixAttr "start" c), ?_,
    expStep_get_start c, expStep_get_stop c⟩
  unfold normalize_exponents
  rw [Elem.children_withChildren]
  refine List.mem_map.mpr ⟨c, hc, ?_⟩
  rw [if_pos hp]

/-! Section: the claims -/

/-- Claim C1 (corrected): the programme loop performs no start-instant
deduplication at all. One ingestion step on a programme with a truthy
channel reference leaves the channel dictionaries untouched and appends
the element to the end of its channel's programme list unconditionally —
no comparison against the existing list happens, so a programme whose
start instant equals one already recorded is retained, not dropped. -/
theorem claim_C1 (st : MergeState) (e : Elem) (ch : String)
    (htag : e.tag = "programme") (hch : e.get "channel" = some ch)
    (hne : ch ≠ "") :
    (ingestElem st e).output_channels = st.output_channels ∧
    (ingestElem st e).seen_channel_ids = st.seen_channel_ids ∧
    progsFor (ingestElem st e).output_programs ch =
      progsFor st.output_programs ch ++ [e] := by
  rw [ingestElem_programme htag hch hne]
  exact ⟨rfl, rfl, progsFor_progAppend st.output_programs ch e⟩

/-- Witness for C1: a second programme for channel `X` with the same
start attribute as the one already recorded is still appended. -/
theorem claim_C1_witness :
    (Elem.mk "programme" [("channel", "X"), ("start", "20200101120000 +0000")]
      (some "b") false []).tag = "programme" ∧
    progsFor (ingestElem
        ⟨[], [],
         [("X", [Elem.mk "programme"
            [("channel", "X"), ("start", "20200101120000 +0000")]
            (some "a") false []])]⟩
        (Elem.mk "programme" [("channel", "X"), ("start", "20200101120000 +0000")]
          (some "b") false [])).output_programs "X" =
      progsFor [("X", [Elem.mk "programme"
          [("channel", "X"), ("start", "20200101120000 +0000")]
          (some "a") false []])] "X" ++
        [Elem.mk "programme" [("channel", "X"), ("start", "20200101120000 +0000")]
          (some "b") false []] :=
  ⟨rfl, (claim_C1
      ⟨[], [],
       [("X", [Elem.mk "programme"
          [("channel", "X"), ("start", "20200101120000 +0000")]
          (some "a") false []])]⟩
      (Elem.mk "programme" [("channel", "X"), ("start", "20200101120000 +0000")]
        (some "b") false [])
      "X" rfl rfl (by decide)).2.2⟩

/-- Counterexample to C1 as stated: a source with two programmes for
channel `X` carrying byte-identical start attributes and different
texts; after ingestion the channel's list holds both — the later-seen
one was not dropped. -/
theorem claim_C1_counterexample :
    (ingestAll [Elem.mk "tv" [] none false
      [Elem.mk "programme" [("channel", "X"), ("start", "20200101120000 +0000")]
        (some "a") false [],
       Elem.mk "programme" [("channel", "X"), ("start", "20200101120000 +0000")]
        (some "b") false []]]).output_programs =
    [("X", [Elem.mk "programme"
        [("channel", "X"), ("start", "20200101120000 +0000")] (some "a") false [],
      Elem.mk "programme"
        [("channel", "X"), ("start", "20200101120000 +0000")] (some "b") false []])] ∧
    (Elem.mk "programme" [("channel", "X"), ("start", "20200101120000 +0000")]
      (some "a") false []).get "start" =
      (Elem.mk "programme" [("channel", "X"), ("start", "20200101120000 +0000")]
        (some "b") false []).get "start" ∧
    (Elem.mk "programme" [("channel", "X"), ("start", "20200101120000 +0000")]
      (some "a") false []).text ≠
      (Elem.mk "programme" [("channel", "X"), ("start", "20200101120000 +0000")]
        (some "b") false []).text :=
  ⟨rfl, rfl, by decide⟩

/-- Claim C2 (confirmed): after ingesting any sources, no two surviving
channels share a normalized id; each survivor is stored (unchanged)
under the normalized form of its own literal id; a later channel whose
id normalizes into the stored keys is dropped without touching the
state (and without raising); and stored entries persist through every
later ingestion step, so the first-seen channel wins. -/
theorem claim_C2 (roots : List Elem) :
    ((ingestAll roots).output_channels.map Prod.fst).Nodup ∧
    (∀ p ∈ (ingestAll roots).output_channels,
      ∃ cid, p.2.get "id" = some cid ∧ p.1 = normalize_id cid) ∧
    (∀ st (e : Elem) cid, e.tag = "channel" → e.get "id" = some cid →
      st.output_channels.any (fun p => p.1 = normalize_id cid) = true →
      ingestElem st e = st) ∧
    (∀ st (e : Elem) (q : String × Elem), q ∈ st.output_channels →
      q ∈ (ingestElem st e).output_channels) := by
  obtain ⟨hcorr, hnd, hkey⟩ := chanInv_ingestAll roots
  exact ⟨hnd, hkey, fun st e cid ht hi hd => ingestElem_dup_drop ht hi hd,
    fun st e q hq => ingestElem_preserve_channel hq⟩

/-- Witness for C2: a second channel with the literal id `X` arriving
when the key is already stored changes nothing. -/
theorem claim_C2_witness :
    (Elem.mk "channel" [("id", "X")] none false []).tag = "channel" ∧
    ingestElem
      ⟨[(normalize_id "X",
         Elem.mk "channel" [("id", "X"), ("n", "First")] none false [])],
       ["X"], []⟩
      (Elem.mk "channel" [("id", "X")] none false []) =
      ⟨[(normalize_id "X",
         Elem.mk "channel" [("id", "X"), ("n", "First")] none false [])],
       ["X"], []⟩ :=
  ⟨rfl, (claim_C2 []).2.2.1 _ _ "X" rfl rfl (by simp)⟩

/-- Claim C3 (confirmed): with collision-free normalized keys (which the
merge invariant guarantees), every programme surviving the orphan
pruning carries a channel attribute byte-for-byte equal to a seen
channel id that is unique among the seen ids; a programme whose
normalized reference matches no channel identity is removed; a matching
one is kept with its reference rewritten to the canonical literal id. -/
theorem claim_C3 (seen : List String) (t : Elem)
    (hnd : (seen.map normalize_id).Nodup) :
    (∀ c ∈ (prune_invalid_programmes seen t).children, c.tag = "programme" →
      ∃ id, c.get "channel" = some id ∧ id ∈ seen ∧ seen.count id = 1) ∧
    (∀ c ∈ t.children, c.tag = "programme" →
      normalize_id ((c.get "channel").getD "") ∉ seen.map normalize_id →
      pruneChild seen c = none) ∧
    (∀ c ∈ t.children, c.tag = "programme" → ∀ s, s ∈ seen →
      normalize_id ((c.get "channel").getD "") = normalize_id s →
      pruneChild seen c =
        some (if c.get "channel" = some s then c else c.set "channel" s)) := by
  refine ⟨?_, ?_, ?_⟩
  · intro c hc hctag
    unfold prune_invalid_programmes at hc
    rw [Elem.children_withChildren] at hc
    obtain ⟨e, he, hpr⟩ := List.mem_filterMap.mp hc
    have hptag : e.tag = "programme" := by
      rw [← pruneChild_tag hpr]
      exact hctag
    obtain ⟨id, hid, hidmem⟩ := pruneChild_some_channel hptag hpr
    exact ⟨id, hid, hidmem,
      List.count_eq_one_of_mem (List.Nodup.of_map normalize_id hnd) hidmem⟩
  · intro c _ hctag hnot
    exact (pruneChild_none_iff hctag).mpr hnot
  · intro c _ hctag s hs hkey
    exact pruneChild_of_mem hctag hnd hs hkey

/-- Witness for C3: a programme referring to the sole seen channel id
`X` is kept with the canonical reference. -/
theorem claim_C3_witness :
    (["X"].map normalize_id).Nodup ∧
    pruneChild ["X"] (Elem.mk "programme" [("channel", "X")] none false []) =
      some (if (Elem.mk "programme" [("channel", "X")] none false []).get
            "channel" = some "X" then
          Elem.mk "programme" [("channel", "X")] none false []
        else (Elem.mk "programme" [("channel", "X")] none false []).set
          "channel" "X") :=
  ⟨by simp,
   (claim_C3 ["X"] (Elem.mk "tv" [] none false
        [Elem.mk "programme" [("channel", "X")] none false []]) (by simp)).2.2
      (Elem.mk "programme" [("channel", "X")] none false [])
      (List.mem_singleton.mpr rfl) rfl "X" (List.mem_singleton.mpr rfl) rfl⟩

/-- Claim C4 (corrected): the chronology pass removes exactly the
programmes whose two timestamps both parse and whose stop is not
strictly after the start. A programme whose start or stop fails to
parse is kept, not removed: the bare handler swallows the exception and
the loop moves on. Consequently only the parseable programmes of the
output are guaranteed to satisfy stop strictly after start. -/
theorem claim_C4 (t : Elem) :
    (∀ c ∈ t.children,
      (c ∈ (fix_chronology t).children ↔
        ¬(c.tag = "programme" ∧ ∃ s e, parseAttrTS (c.get "start") = some s ∧
          parseAttrTS (c.get "stop") = some e ∧ e ≤ s))) ∧
    (∀ c ∈ (fix_chronology t).children, c.tag = "programme" →
      ∀ s e, parseAttrTS (c.get "start") = some s →
        parseAttrTS (c.get "stop") = some e → s < e) := by
  constructor
  · intro c hc
    rw [fix_chronology_mem_iff]
    constructor
    · rintro ⟨-, h2⟩ ⟨htag, hex⟩
      exact Bool.false_ne_true ((h2 htag) ▸ (progBadChronology_iff c).mpr hex)
    · intro hn
      refine ⟨hc, fun htag => ?_⟩
      cases hb : progBadChronology c with
      | false => rfl
      | true => exact absurd ⟨htag, (progBadChronology_iff c).mp hb⟩ hn
  · intro c hcf htag s e hs he
    have hbad := ((fix_chronology_mem_iff t c).mp hcf).2 htag
    by_contra hlt
    push_neg at hlt
    have hb : progBadChronology c = true :=
      (progBadChronology_iff c).mpr ⟨s, e, hs, he, hlt⟩
    rw [hbad] at hb
    exact Bool.false_ne_true hb

/-- Witness for C4: the membership characterization at a concrete tree
with a single well-formed programme. -/
theorem claim_C4_witness :
    (Elem.mk "programme" [("channel", "X"), ("start", "20200101120000 +0000"),
        ("stop", "20200101130000 +0000")] none false []) ∈
      (Elem.mk "tv" [] none false
        [Elem.mk "programme" [("channel", "X"), ("start", "20200101120000 +0000"),
          ("stop", "20200101130000 +0000")] none false []]).children ∧
    ((Elem.mk "programme" [("channel", "X"), ("start", "20200101120000 +0000"),
        ("stop", "20200101130000 +0000")] none false []) ∈
      (fix_chronology (Elem.mk "tv" [] none false
        [Elem.mk "programme" [("channel", "X"), ("start", "20200101120000 +0000"),
          ("stop", "20200101130000 +0000")] none false []])).children ↔
      ¬((Elem.mk "programme" [("channel", "X"), ("start", "20200101120000 +0000"),
          ("stop", "20200101130000 +0000")] none false []).tag = "programme" ∧
        ∃ s e, parseAttrTS ((Elem.mk "programme" [("channel", "X"),
            ("start", "20200101120000 +0000"), ("stop", "20200101130000 +0000")]
            none false []).get "start") = some s ∧
          parseAttrTS ((Elem.mk "programme" [("channel", "X"),
            ("start", "20200101120000 +0000"), ("stop", "20200101130000 +0000")]
            none false []).get "stop") = some e ∧ e ≤ s)) :=
  ⟨List.mem_singleton.mpr rfl,
   (claim_C4 (Elem.mk "tv" [] none false
      [Elem.mk "programme" [("channel", "X"), ("start", "20200101120000 +0000"),
        ("stop", "20200101130000 +0000")] none false []])).1
     (Elem.mk "programme" [("channel", "X"), ("start", "20200101120000 +0000"),
       ("stop", "20200101130000 +0000")] none false [])
     (List.mem_singleton.mpr rfl)⟩

/-- Counterexample to C4 as stated: a programme with unparsable
timestamps is retained by the chronology pass — it is not removed
"defensively", and the output is not guaranteed to satisfy
stop > start for it. -/
theorem claim_C4_counterexample :
    parseAttrTS ((Elem.mk "programme" [("channel", "X"), ("start", "garbage"),
      ("stop", "garbage")] none false []).get "start") = none ∧
    fix_chronology (Elem.mk "tv" [] none false
      [Elem.mk "programme" [("channel", "X"), ("start", "garbage"),
        ("stop", "garbage")] none false []]) =
    Elem.mk "tv" [] none false
      [Elem.mk "programme" [("channel", "X"), ("start", "garbage"),
        ("stop", "garbage")] none false []] :=
  ⟨rfl, rfl⟩

/-- Claim C5 (confirmed): each of the six normalization passes is
independently idempotent, the whole pipeline is idempotent on trees, and
running the pipeline twice serializes to byte-identical output text. -/
theorem claim_C5 (seen : List String) (t : Elem) :
    normalize_timezones (normalize_timezones t) = normalize_timezones t ∧
    normalize_exponents (normalize_exponents t) = normalize_exponents t ∧
    escape_specials (escape_specials t) = escape_specials t ∧
    fix_chronology (fix_chronology t) = fix_chronology t ∧
    prune_invalid_programmes seen (prune_invalid_programmes seen t) =
      prune_invalid_programmes seen t ∧
    escape_ampersands (escape_ampersands t) = escape_ampersands t ∧
    normalizePipeline seen (normalizePipeline seen t) = normalizePipeline seen t ∧
    serializeElem (normalizePipeline seen (normalizePipeline seen t)) =
      serializeElem (normalizePipeline seen t) :=
  ⟨normalize_timezones_idem t, normalize_exponents_idem t, escape_specials_idem t,
   fix_chronology_idem t, prune_invalid_programmes_idem seen t,
   escape_ampersands_idem t, normalizePipeline_idem seen t,
   congrArg serializeElem (normalizePipeline_idem seen t)⟩

/-- Claim C6 (corrected): URL sources never raise — resolution always
returns normally, a stale-cache/failed-fetch source and an unparsable
document each contribute nothing and the run continues, and a run over
URL sources always completes. A local (non-URL) source, however, is
opened with no exception handler, so an unreadable local file raises
out of the run (see the counterexample). -/
theorem claim_C6 (env : Env) :
    (∀ s, isUrl s = true → ∃ r, open_xml env s = Except.ok r) ∧
    (∀ st s, isUrl s = true → env.fresh s = false → env.fetchOk s = false →
      get_channels_programs env st s = Except.ok st) ∧
    (∀ st s, isUrl s = true → env.fresh s = true →
      env.parse (env.cacheContent s) = none →
      get_channels_programs env st s = Except.ok st) ∧
    (∀ sources, (∀ s ∈ sources, isUrl s = true) →
      ∃ st, runMerge env sources = Except.ok st) :=
  ⟨fun _ h => open_xml_url_ok env h,
   fun st s h1 h2 h3 => get_channels_programs_fetch_fail env st s h1 h2 h3,
   fun st s h1 h2 h3 => get_channels_programs_parse_fail env st s h1 h2 h3,
   fun sources h => runMerge_all_urls env sources h⟩

/-- Witness for C6: a URL source whose fetch fails is skipped and the
run over it completes normally. -/
theorem claim_C6_witness :
    isUrl "http://e/g.xml" = true ∧
    get_channels_programs ⟨fun _ => false, fun _ => "", fun _ => false,
      fun _ => "", fun _ => none, fun _ => none⟩ emptyState "http://e/g.xml" =
      Except.ok emptyState ∧
    ∃ st, runMerge ⟨fun _ => false, fun _ => "", fun _ => false, fun _ => "",
      fun _ => none, fun _ => none⟩ ["http://e/g.xml"] = Except.ok st :=
  ⟨rfl,
   (claim_C6 ⟨fun _ => false, fun _ => "", fun _ => false, fun _ => "",
      fun _ => none, fun _ => none⟩).2.1 emptyState "http://e/g.xml" rfl rfl rfl,
   (claim_C6 ⟨fun _ => false, fun _ => "", fun _ => false, fun _ => "",
      fun _ => none, fun _ => none⟩).2.2.2 ["http://e/g.xml"] (fun s hs => by
        rw [List.mem_singleton] at hs
        subst hs
        rfl)⟩

/-- Counterexample to C6 as stated: an unreadable local (non-URL)
source raises out of the whole run instead of being skipped — the run
produces no output at all. -/
theorem claim_C6_counterexample :
    isUrl "guide.xml" = false ∧
    runMerge ⟨fun _ => false, fun _ => "", fun _ => false, fun _ => "",
      fun _ => none, fun _ => none⟩ ["guide.xml"] = Except.error "guide.xml" :=
  ⟨rfl, rfl⟩

/-- Claim C7 (confirmed): the timezone substitution rewrites a
single-digit-hour colon offset suffix to the zero-padded colon-free
form, leaves any value ending in five characters with a digit in the
middle (in particular a canonical `±HHMM` offset) unchanged, and the
pass applies exactly this substitution to the start and stop attributes
of every top-level programme. -/
theorem claim_C7 :
    (∀ (pre : List Char) (sg h m1 m2 : Char), isSign sg = true →
      h.isDigit = true → m1.isDigit = true → m2.isDigit = true →
      tzSub ⟨pre ++ [sg, h, ':', m1, m2]⟩ = ⟨pre ++ [sg, '0', h, m1, m2]⟩) ∧
    (∀ (s : String) (l : List Char) (a b c d e : Char),
      s.data = l ++ [a, b, c, d, e] → c.isDigit = true → tzSub s = s) ∧
    (∀ root c, c ∈ root.children → c.tag = "programme" →
      ∃ c', c' ∈ (normalize_timezones root).children ∧
        c'.get "start" = (c.get "start").map tzSub ∧
        c'.get "stop" = (c.get "stop").map tzSub) :=
  ⟨fun pre sg h m1 m2 h1 h2 h3 h4 => tzSub_one_digit pre sg h m1 m2 h1 h2 h3 h4,
   fun s l a b c d e h1 h2 => tzSub_suffix5 s l a b c d e h1 h2,
   fun root c hc hp => normalize_timezones_child root c hc hp⟩

/-- Witness for C7: `+5:30` becomes `+0530`, and `+0530` stays. -/
theorem claim_C7_witness :
    tzSub ⟨"20200101000000 ".data ++ ['+', '5', ':', '3', '0']⟩ =
      ⟨"20200101000000 ".data ++ ['+', '0', '5', '3', '0']⟩ ∧
    tzSub "20200101000000 +0530" = "20200101000000 +0530" :=
  ⟨claim_C7.1 "20200101000000 ".data '+' '5' '3' '0' (by decide) (by decide)
      (by decide) (by decide),
   claim_C7.2.1 "20200101000000 +0530" "20200101000000 ".data '+' '0' '5' '3' '0'
      rfl (by decide)⟩

/-- Claim C8 (corrected): a matching scientific-notation value is
rewritten to the truncated integer rendered as a zero-padded digit
string of MINIMUM width 14 (wider values keep all their digits — not
always exactly 14), with the captured offset suffix (empty or a sign
and four digits) appended; the pass applies this substitution to the
start and stop attributes of every top-level programme. -/
theorem claim_C8 (s : String) (m : SciMatch) (h : sciParse s.data = some m) :
    sciSub s = ⟨pad14 (sciVal m) ++ m.suffix⟩ ∧
    (∀ x ∈ pad14 (sciVal m), x.isDigit = true) ∧
    (pad14 (sciVal m)).length = max 14 (natToDigits (sciVal m)).length ∧
    (m.suffix = [] ∨ ∃ sg a b c d, m.suffix = [sg, a, b, c, d] ∧
      isSign sg = true ∧ a.isDigit = true ∧ b.isDigit = true ∧
      c.isDigit = true ∧ d.isDigit = true) ∧
    (∀ root c, c ∈ root.children → c.tag = "programme" →
      ∃ c', c' ∈ (normalize_exponents root).children ∧
        c'.get "start" = (c.get "start").map sciSub ∧
        c'.get "stop" = (c.get "stop").map sciSub) :=
  ⟨sciSub_eq_some h, pad14_all_digits _, pad14_length _, sciParse_suffix_shape h,
   fun root c hc hp => normalize_exponents_child root c hc hp⟩

/-- Witness for C8: the concrete value `1.5e+14` matches and is
rewritten to the padded rendering of its truncation. -/
theorem claim_C8_witness :
    sciParse "1.5e+14".data = some ⟨['1'], ['5'], true, ['1', '4'], []⟩ ∧
    sciSub "1.5e+14" =
      ⟨pad14 (sciVal ⟨['1'], ['5'], true, ['1', '4'], []⟩) ++ ([] : List Char)⟩ :=
  ⟨rfl, (claim_C8 "1.5e+14" ⟨['1'], ['5'], true, ['1', '4'], []⟩ rfl).1⟩

/-- Counterexample to C8 as stated: `1.5e+14` is rewritten to a
15-digit string — `f"{v:014d}"` pads to a minimum width of 14 and does
not truncate wider values to 14 digits. -/
theorem claim_C8_counterexample :
    sciSub "1.5e+14" = "150000000000000" ∧
    (sciSub "1.5e+14").data.length ≠ 14 := by
  have h2 : sciSub "1.5e+14" =
      ⟨pad14 (sciVal ⟨['1'], ['5'], true, ['1', '4'], []⟩) ++ []⟩ :=
    sciSub_eq_some rfl
  rw [show sciVal ⟨['1'], ['5'], true, ['1', '4'], []⟩ = 150000000000000 from rfl,
    show pad14 150000000000000 = "150000000000000".data from by
      simp [pad14, natToDigits],
    List.append_nil] at h2
  refine ⟨h2, ?_⟩
  rw [h2]
  decide

/-- Claim C9 (corrected): pass 3 only unwraps text installed as CDATA
(the marker is cleared while the text itself, the tag, every attribute
value and the child list are preserved, recursing into the subtree); it
never escapes anything — in particular a raw `&` in an attribute value
is left untouched by this pass (see the counterexample). -/
theorem claim_C9 (e : Elem) :
    (∀ k, (escape_specials e).get k = e.get k) ∧
    (escape_specials e).text = e.text ∧
    (escape_specials e).tag = e.tag ∧
    (escape_specials e).children = e.children.map escape_specials ∧
    (e.isCData = true → e.text.isSome = true →
      (escape_specials e).isCData = false) ∧
    (e.isCData = false → (escape_specials e).isCData = false) :=
  ⟨fun k => escape_specials_get e k, escape_specials_text e,
   escape_specials_tag e, escape_specials_children e,
   fun h1 h2 => escape_specials_isCData_unwrap e h1 h2,
   fun h1 => escape_specials_isCData_keep e h1⟩

/-- Witness for C9: a CDATA-marked element with text has its marker
cleared. -/
theorem claim_C9_witness :
    (Elem.mk "p" [] (some "x") true []).isCData = true ∧
    (escape_specials (Elem.mk "p" [] (some "x") true [])).isCData = false :=
  ⟨rfl, (claim_C9 (Elem.mk "p" [] (some "x") true [])).2.2.2.2.1 rfl rfl⟩

/-- Counterexample to C9 as stated: an attribute value holding a raw
`&` that the ampersand pattern would escape passes through pass 3
byte-identically — the pass does not escape attribute values. -/
theorem claim_C9_counterexample :
    (escape_specials (Elem.mk "p" [("t", "a & b")] (some "x") true [])).get "t" =
      some "a & b" ∧
    ampSub "a & b" ≠ "a & b" ∧
    (escape_specials (Elem.mk "p" [("t", "a & b")] (some "x") true [])).isCData =
      false :=
  ⟨by rw [escape_specials_get]; rfl, by decide,
   escape_specials_isCData_unwrap _ rfl rfl⟩

/-- Claim C10 (confirmed): identity normalization ignores surrounding
whitespace (and unescapes entities — concretely, `&amp;` becomes `&`
and padding is stripped), and both consumers compare normalized forms:
a channel whose id normalizes into the stored keys is dropped as a
duplicate, and a programme reference normalizing like any seen id is
kept by the pruning while one matching no normalized seen id is
removed. -/
theorem claim_C10 :
    (∀ (s : String) (ws1 ws2 : List Char), (∀ c ∈ ws1, isPySpace c = true) →
      (∀ c ∈ ws2, isPySpace c = true) →
      normalize_id ⟨ws1 ++ s.data ++ ws2⟩ = normalize_id s) ∧
    normalize_id " a&amp;b " = "a&b" ∧
    normalize_id "a&b" = "a&b" ∧
    (∀ st (e : Elem) cid, e.tag = "channel" → e.get "id" = some cid →
      st.output_channels.any (fun p => p.1 = normalize_id cid) = true →
      ingestElem st e = st) ∧
    (∀ seen (c : Elem) s, c.tag = "programme" → s ∈ seen →
      normalize_id ((c.get "channel").getD "") = normalize_id s →
      pruneChild seen c ≠ none) ∧
    (∀ seen (c : Elem), c.tag = "programme" →
      normalize_id ((c.get "channel").getD "") ∉ seen.map normalize_id →
      pruneChild seen c = none) := by
  refine ⟨fun s ws1 ws2 h1 h2 => normalize_id_pad s ws1 ws2 h1 h2,
    by simp [normalize_id, saxUnescape, pyStrip, stripChars, replaceChars,
      isPySpace],
    by simp [normalize_id, saxUnescape, pyStrip, stripChars, replaceChars,
      isPySpace],
    fun st e cid ht hi hd => ingestElem_dup_drop ht hi hd,
    ?_,
    fun seen c hp hmem => (pruneChild_none_iff hp).mpr hmem⟩
  intro seen c s hp hs hkey hnone
  rw [pruneChild_none_iff hp, hkey] at hnone
  exact hnone (List.mem_map_of_mem normalize_id hs)

/-- Witness for C10: a one-space padding around an id does not change
its normalized identity. -/
theorem claim_C10_witness :
    (∀ c ∈ [' '], isPySpace c = true) ∧
    normalize_id ⟨[' '] ++ "a".data ++ [' ']⟩ = normalize_id "a" :=
  ⟨by decide, claim_C10.1 "a" [' '] [' '] (by decide) (by decide)⟩

end XmlMerge
